import Mathlib

/-!
Verification development for `xz`: rolling hash and LZMA header

Two parts of the repository are embedded here.

* `Hash`: the Rabin-Karp rolling hash engine (`NewRabinKarp`, `DirectHash`,
  `RollNext`, `ComputeHashes`).  Only the test file of package `hash` is
  available, so the engine is modelled from the specification text.
* `Lzma`: the 13-byte LZMA header codec of `lzma/header.go`
  (`uint32LE`, `uint64LE`, `putUint32LE`, `putUint64LE`, `marshalBinary`,
  `unmarshalBinary`), translated from the Go source.

Conventions: a Go `byte` is a `Fin 256`; `uint32`/`uint64` values are natural
numbers reduced explicitly modulo `2^32`/`2^64`; `int`/`int64` values are
integers; a Go `error` is an `Option String` (`none` is `nil`); a function that
can panic on an index out of range returns an `Option` whose `none` is the
panic.
-/

/-- A Go `byte`. -/
abbrev Byte := Fin 256

namespace Hash

/-- Modelled from the spec: the hash's native width, "fixed-width, e.g. 64-bit
modulo-2^64" wraparound arithmetic (the hash values are `uint64` in the test's
`%#016x` formatting). -/
def wordMod : Nat := 2 ^ 64

/-- Modelled from the spec: the RollingHasher value of section 3/4.1, missing
from the sources.  It holds the fixed window length, the polynomial base
(BaseMultiplier) and the 256-entry RemovalTable. -/
structure RabinKarp where
  WindowLength : Nat
  BaseMultiplier : Nat
  RemovalTable : List Nat
deriving DecidableEq, Repr

/-- Modelled from the spec: the coefficient `base^k` "in the hash's wraparound
arithmetic", obtained by `k` wrapping multiplications. -/
def powWrap (a : Nat) : Nat → Nat
  | 0 => 1
  | k + 1 => powWrap a k * a % wordMod

/-- Modelled from the spec: the body of Construct for a positive window length
`w`: the base, reduced to the word width, and the table
`table[b] = b * base^(w-1)` in wraparound arithmetic, for b = 0..255. -/
def buildRabinKarp (a w : Nat) : RabinKarp :=
  let base := a % wordMod
  let aOldest := powWrap base (w - 1)
  { WindowLength := w
    BaseMultiplier := base
    RemovalTable := (List.range 256).map (fun b => b * aOldest % wordMod) }

/-- Modelled from the spec: Construct(windowLength), the test's `NewRabinKarp`,
missing from the sources.  The base multiplier is a constant the spec does not
give, so it is the parameter `a`.  A window length `n ≤ 0` is rejected with an
explicit error; the test's call has a single result, so the rejection is a
panic, whose message the `error` case carries. -/
def NewRabinKarp (a : Nat) (n : Int) : Except String RabinKarp :=
  if n ≤ 0 then .error "number of bytes n must be positive"
  else .ok (buildRabinKarp a n.toNat)

/-- Modelled from the spec: DirectHash(slice), missing from the sources.
Horner's method: start at 0, repeatedly `acc = acc*BaseMultiplier + byte`,
each step wrapping modulo 2^64. -/
def DirectHash (r : RabinKarp) (s : List Byte) : Nat :=
  s.foldl (fun acc b => (acc * r.BaseMultiplier + b.val) % wordMod) 0

/-- Modelled from the spec: the table lookup `RemovalTable[b]`. -/
def removal (r : RabinKarp) (b : Byte) : Nat :=
  r.RemovalTable.getD b.val 0

/-- Wrapping subtraction of `uint64` values. -/
def subWrap (x y : Nat) : Nat :=
  (x % wordMod + (wordMod - y % wordMod)) % wordMod

/-- Modelled from the spec: RollNext(currentHash, outgoingByte, incomingByte),
missing from the sources:
`nextHash = (currentHash - RemovalTable[outgoingByte]) * BaseMultiplier + incomingByte`,
all in wraparound arithmetic. -/
def RollNext (r : RabinKarp) (currentHash : Nat) (outgoingByte incomingByte : Byte) : Nat :=
  (subWrap currentHash (removal r outgoingByte) * r.BaseMultiplier + incomingByte.val) % wordMod

/-- Modelled from the spec: the state of one BatchHashComputer invocation.  The
hasher and the buffer are carried along so that the effect of the loop on them
can be stated; `h` is the RollingState and `out` the output sequence. -/
structure BatchState where
  hasher : RabinKarp
  buffer : List Byte
  h : Nat
  out : List Nat
deriving DecidableEq, Repr

/-- Modelled from the spec: one iteration of the roll loop at index `i`: the
value at index `i` is `RollNext(previous, buffer[i-1], buffer[i+w-1])`. -/
def rollStep (i : Nat) (s : BatchState) : BatchState :=
  let w := s.hasher.WindowLength
  let next := RollNext s.hasher s.h (s.buffer.getD (i - 1) 0) (s.buffer.getD (i + w - 1) 0)
  { s with h := next, out := s.out ++ [next] }

/-- Modelled from the spec: `k` iterations of the roll loop starting at index
`i`. -/
def rollLoop : Nat → Nat → BatchState → BatchState
  | 0, _, s => s
  | k + 1, i, s => rollLoop k (i + 1) (rollStep i s)

/-- Modelled from the spec: a whole BatchHashComputer invocation, returning the
final state.  A buffer shorter than the window gives the empty sequence;
otherwise index 0 is `DirectHash(buffer[0:w])` and `n - w` roll steps follow. -/
def runBatch (r : RabinKarp) (p : List Byte) : BatchState :=
  if p.length < r.WindowLength then
    { hasher := r, buffer := p, h := 0, out := [] }
  else
    let h0 := DirectHash r (p.take r.WindowLength)
    rollLoop (p.length - r.WindowLength) 1 { hasher := r, buffer := p, h := h0, out := [h0] }

/-- Modelled from the spec: ComputeHashes(hasher, buffer), missing from the
sources: the output sequence of the batch run. -/
def ComputeHashes (r : RabinKarp) (p : List Byte) : List Nat :=
  (runBatch r p).out

/-- The polynomial reference of the spec, written as the sum
`Σ slice[k] * BaseMultiplier^(len(slice)-1-k)` reduced modulo 2^64. -/
def polyHash (base : Nat) (s : List Byte) : Nat :=
  ((List.range s.length).map (fun k => (s.getD k 0).val * base ^ (s.length - 1 - k))).sum % wordMod

/-- The sub-slice `p[i:j]`. -/
def slice (p : List Byte) (i j : Nat) : List Byte :=
  (p.take j).drop i

/-- The ring in which the hash arithmetic takes place. -/
abbrev Word := ZMod wordMod

/-- Horner evaluation in the ring `Word`, starting from the accumulator `z`. -/
def hornerW (B : Word) (s : List Byte) (z : Word) : Word :=
  s.foldl (fun acc b => acc * B + (b.val : Word)) z

/-- The test buffer `"abcde"`. -/
def abcde : List Byte := [97, 98, 99, 100, 101]

/-- Modelled from the spec: the alternative to the table named in the design
notes, RollNext with the removal coefficient recomputed on demand as
`byte * BaseMultiplier^(w-1)` in wraparound arithmetic. -/
def RollNextOnDemand (r : RabinKarp) (currentHash : Nat) (outgoingByte incomingByte : Byte) :
    Nat :=
  (subWrap currentHash (outgoingByte.val * r.BaseMultiplier ^ (r.WindowLength - 1) % wordMod)
      * r.BaseMultiplier + incomingByte.val) % wordMod

/-- Modelled from the spec: RollNext with its one table lookup made explicit;
`none` is a lookup outside the table. -/
def RollNextChecked (r : RabinKarp) (currentHash : Nat) (outgoingByte incomingByte : Byte) :
    Option Nat := do
  let t ← r.RemovalTable[outgoingByte.val]?
  pure ((subWrap currentHash t * r.BaseMultiplier + incomingByte.val) % wordMod)

/-- Modelled from the spec: one iteration of the roll loop with its two buffer
reads `buffer[i-1]`, `buffer[i+w-1]` and the table lookup made explicit; `none`
is an index out of range. -/
def rollStepChecked (i : Nat) (s : BatchState) : Option BatchState := do
  let o ← s.buffer[i - 1]?
  let inc ← s.buffer[i + s.hasher.WindowLength - 1]?
  let next ← RollNextChecked s.hasher s.h o inc
  pure { s with h := next, out := s.out ++ [next] }

/-- Modelled from the spec: `k` iterations of the checked roll loop starting at
index `i`; a failing iteration ends the run. -/
def rollLoopChecked : Nat → Nat → BatchState → Option BatchState
  | 0, _, s => some s
  | k + 1, i, s => (rollStepChecked i s).bind (rollLoopChecked k (i + 1))

/-- Modelled from the spec: ComputeHashes with every read that could go wrong
at call time made explicit; `none` is a failure inside the computation. -/
def ComputeHashesChecked (r : RabinKarp) (p : List Byte) : Option (List Nat) :=
  if p.length < r.WindowLength then some []
  else
    let h0 := DirectHash r (p.take r.WindowLength)
    (rollLoopChecked (p.length - r.WindowLength) 1
      { hasher := r, buffer := p, h := h0, out := [h0] }).map (fun s => s.out)

end Hash

namespace Lzma

/-- The conversion `byte(x)`: the low 8 bits of `x`. -/
def toByte (x : Nat) : Byte := ⟨x % 256, Nat.mod_lt _ (by decide)⟩

/-- The read `b[i]`; `none` is the index-out-of-range panic. -/
def index (b : List Byte) (i : Nat) : Option Byte := b[i]?

/-- The assignment `b[i] = v`; `none` is the index-out-of-range panic. -/
def assign (b : List Byte) (i : Nat) (v : Byte) : Option (List Byte) :=
  if i < b.length then some (b.set i v) else none

/-- The slice expression `data[i:]`; `none` is the slice-bounds panic. -/
def sliceFrom (data : List Byte) (i : Nat) : Option (List Byte) :=
  if i ≤ data.length then some (data.drop i) else none

/-- A call `f(data[i:j])` of a function that writes into its argument: since
the slice shares the array of `data`, the bytes `i..j-1` of `data` become what
`f` leaves in the slice.  `none` is a panic (slice bounds, or a panic of `f`). -/
def withSlice (data : List Byte) (i j : Nat) (f : List Byte → Option (List Byte)) :
    Option (List Byte) :=
  if i ≤ j ∧ j ≤ data.length then
    (f ((data.take j).drop i)).map (fun s => data.take i ++ s ++ data.drop j)
  else none

/-- `uint32LE` reads an uint32 integer from a byte slice. -/
def uint32LE (b : List Byte) : Option Nat := do
  let b3 ← index b 3
  let x := (b3.val <<< 24) % 2 ^ 32
  let b2 ← index b 2
  let x := x ||| (b2.val <<< 16) % 2 ^ 32
  let b1 ← index b 1
  let x := x ||| (b1.val <<< 8) % 2 ^ 32
  let b0 ← index b 0
  let x := x ||| b0.val
  pure x

/-- `uint64LE` converts the uint64 value stored as little endian to an uint64
value. -/
def uint64LE (b : List Byte) : Option Nat := do
  let b7 ← index b 7
  let x := (b7.val <<< 56) % 2 ^ 64
  let b6 ← index b 6
  let x := x ||| (b6.val <<< 48) % 2 ^ 64
  let b5 ← index b 5
  let x := x ||| (b5.val <<< 40) % 2 ^ 64
  let b4 ← index b 4
  let x := x ||| (b4.val <<< 32) % 2 ^ 64
  let b3 ← index b 3
  let x := x ||| (b3.val <<< 24) % 2 ^ 64
  let b2 ← index b 2
  let x := x ||| (b2.val <<< 16) % 2 ^ 64
  let b1 ← index b 1
  let x := x ||| (b1.val <<< 8) % 2 ^ 64
  let b0 ← index b 0
  let x := x ||| b0.val
  pure x

/-- `putUint32LE` puts an uint32 integer into a byte slice that must have at
least a length of 4 bytes. -/
def putUint32LE (b : List Byte) (x : Nat) : Option (List Byte) := do
  let b ← assign b 0 (toByte x)
  let b ← assign b 1 (toByte (x >>> 8))
  let b ← assign b 2 (toByte (x >>> 16))
  let b ← assign b 3 (toByte (x >>> 24))
  pure b

/-- `putUint64LE` puts the uint64 value into the byte slice as little endian
value. The byte slice must have at least place for 8 bytes. -/
def putUint64LE (b : List Byte) (x : Nat) : Option (List Byte) := do
  let b ← assign b 0 (toByte x)
  let b ← assign b 1 (toByte (x >>> 8))
  let b ← assign b 2 (toByte (x >>> 16))
  let b ← assign b 3 (toByte (x >>> 24))
  let b ← assign b 4 (toByte (x >>> 32))
  let b ← assign b 5 (toByte (x >>> 40))
  let b ← assign b 6 (toByte (x >>> 48))
  let b ← assign b 7 (toByte (x >>> 56))
  pure b

/-- `noHeaderSize` defines the value of the length field in the LZMA header:
`1<<64 - 1`. -/
def noHeaderSize : Nat := 2 ^ 64 - 1

/-- The header length. -/
def headerLen : Nat := 13

/-- The conversion `uint32(x)` of a signed integer. -/
def uint32 (x : Int) : Nat := (x % 2 ^ 32).toNat

/-- The conversion `uint64(x)` of a signed integer. -/
def uint64 (x : Int) : Nat := (x % 2 ^ 64).toNat

/-- The conversion of an unsigned value to a signed integer type of the given
width (two's complement): `int64(x)` is `toSigned 64 x`. -/
def toSigned (bits : Nat) (x : Nat) : Int :=
  if x % 2 ^ bits < 2 ^ (bits - 1) then ((x % 2 ^ bits : Nat) : Int)
  else ((x % 2 ^ bits : Nat) : Int) - (2 : Int) ^ bits

/-- The declarations of package `lzma` that `header.go` uses and that live in
other files: the methods `Verify` and `Code` of the type `Properties` (the
type itself is the parameter `P`), the function `PropertiesForCode` with its
two results, the constant `MaxDictCap`, and the width in bits of the platform
type `int`. -/
structure Env (P : Type) where
  Verify : P → Option String
  Code : P → Byte
  PropertiesForCode : Byte → P × Option String
  MaxDictCap : Int
  intBits : Nat

/-- Header represents the header of an LZMA file.  `Size` is the uncompressed
size; negative value if no size is given. -/
structure Header (P : Type) where
  Properties : P
  DictCap : Int
  Size : Int
deriving DecidableEq, Repr

/-- The size field written by `marshalBinary`. -/
def sizeField (size : Int) : Nat :=
  if size > 0 then uint64 size else noHeaderSize

/-- `marshalBinary` marshals the header.  The result is the pair
`(data, err)`; the outer `none` is a panic. -/
def marshalBinary {P : Type} (env : Env P) (h : Header P) :
    Option (Option (List Byte) × Option String) :=
  match env.Verify h.Properties with
  | some err => some (none, some err)
  | none =>
    if ¬ (0 ≤ h.DictCap ∧ h.DictCap ≤ env.MaxDictCap) then
      some (none, some ("lzma: DictCap " ++ toString h.DictCap ++ " out of range"))
    else do
      let data := List.replicate 13 (0 : Byte)
      -- property byte
      let data ← assign data 0 (env.Code h.Properties)
      -- dictionary capacity
      let data ← withSlice data 1 5 (fun b => putUint32LE b (uint32 h.DictCap))
      -- uncompressed size
      let s := sizeField h.Size
      let data ← withSlice data 5 data.length (fun b => putUint64LE b s)
      pure (some data, none)

/-- `unmarshalBinary` unmarshals the header.  The result is the receiver as the
call leaves it, and the returned error; the outer `none` is a panic. -/
def unmarshalBinary {P : Type} (env : Env P) (h : Header P) (data : List Byte) :
    Option (Header P × Option String) :=
  if data.length ≠ headerLen then
    some (h, some "lzma.unmarshalBinary: data has wrong length")
  else do
    -- properties
    let d0 ← index data 0
    let h := { h with Properties := (env.PropertiesForCode d0).1 }
    match (env.PropertiesForCode d0).2 with
    | some err => pure (h, some err)
    | none =>
      -- dictionary capacity
      let x ← (sliceFrom data 1).bind uint32LE
      let h := { h with DictCap := toSigned env.intBits x }
      if h.DictCap < 0 then
        pure (h, some "LZMA header: dictionary capacity exceeds maximum integer")
      else
        -- uncompressed size
        let s ← (sliceFrom data 5).bind uint64LE
        if s = noHeaderSize then
          pure ({ h with Size := -1 }, none)
        else
          let h := { h with Size := toSigned 64 s }
          if h.Size < 0 then
            pure (h, some "LZMA header: uncompressed size out of int64 range")
          else
            pure (h, none)

/-- A concrete instance of the missing declarations, for evaluating the codec
on concrete headers: properties are identified with their code byte, the codes
0..224 are the valid ones, `MaxDictCap` is `1<<32 - 1` and `int` has 64 bits. -/
def sampleEnv : Env Byte where
  Verify p := if p.val < 225 then none else some "lzma: invalid properties"
  Code p := p
  PropertiesForCode c :=
    if c.val < 225 then (c, none) else (0, some "lzma: invalid properties code")
  MaxDictCap := 2 ^ 32 - 1
  intBits := 64

/-- The 13 bytes of a header with property byte `code`, dictionary capacity
field `d` and size field `s`, in the layout written by `marshalBinary`. -/
def headerBytes (code : Byte) (d s : Nat) : List Byte :=
  [code, toByte d, toByte (d >>> 8), toByte (d >>> 16), toByte (d >>> 24),
   toByte s, toByte (s >>> 8), toByte (s >>> 16), toByte (s >>> 24),
   toByte (s >>> 32), toByte (s >>> 40), toByte (s >>> 48), toByte (s >>> 56)]

/-- The header used in the concrete evaluations: property code 0x5D, an 8 MiB
dictionary and the given size. -/
def sampleHeader (size : Int) : Header Byte :=
  { Properties := 93, DictCap := 8388608, Size := size }

/-- The unsigned little-endian value of the first `n` bytes of `b` (byte 0 is
the least significant). -/
def leValue : Nat → List Byte → Nat
  | 0, _ => 0
  | n + 1, b => (b.getD 0 0).val + 256 * leValue n (b.drop 1)

/-- The instance `sampleEnv` on a platform whose `int` has 32 bits. -/
def sampleEnv32 : Env Byte :=
  { sampleEnv with intBits := 32 }

end Lzma
namespace Hash

theorem wordMod_pos : 0 < wordMod := by unfold wordMod; positivity

theorem wordMod_cast : ((wordMod : Nat) : Word) = 0 := ZMod.natCast_self wordMod

/-- Two reduced words with the same image in `Word` are equal. -/
theorem eq_of_cast_eq {x y : Nat} (hx : x < wordMod) (hy : y < wordMod)
    (h : (x : Word) = (y : Word)) : x = y := by
  have h2 := (ZMod.natCast_eq_natCast_iff' x y wordMod).mp h
  rwa [Nat.mod_eq_of_lt hx, Nat.mod_eq_of_lt hy] at h2

theorem powWrap_eq (a k : Nat) : powWrap a k = a ^ k % wordMod := by
  induction k with
  | zero => simp [powWrap, wordMod]
  | succ k ih => rw [powWrap, ih, pow_succ, Nat.mod_mul_mod]

theorem hornerW_acc (B : Word) (s : List Byte) (z : Word) :
    hornerW B s z = z * B ^ s.length + hornerW B s 0 := by
  induction s generalizing z with
  | nil => simp [hornerW]
  | cons x t ih =>
    have h1 := ih (z * B + (x.val : Word))
    have h2 := ih ((0 : Word) * B + (x.val : Word))
    simp only [hornerW, List.foldl_cons, List.length_cons] at h1 h2 ⊢
    rw [h1, h2]; ring

theorem hornerW_cons (B : Word) (x : Byte) (t : List Byte) :
    hornerW B (x :: t) 0 = (x.val : Word) * B ^ t.length + hornerW B t 0 := by
  have h := hornerW_acc B t ((0 : Word) * B + (x.val : Word))
  simp only [hornerW, List.foldl_cons] at h ⊢
  rw [h]; ring

theorem hornerW_snoc (B : Word) (t : List Byte) (b : Byte) :
    hornerW B (t ++ [b]) 0 = hornerW B t 0 * B + (b.val : Word) := by
  simp [hornerW, List.foldl_append]

theorem foldl_cast (B : Nat) (s : List Byte) (acc : Nat) :
    ((s.foldl (fun acc b => (acc * B + b.val) % wordMod) acc : Nat) : Word)
      = hornerW (B : Word) s (acc : Word) := by
  induction s generalizing acc with
  | nil => simp [hornerW]
  | cons x t ih =>
    simp only [List.foldl_cons, hornerW] at ih ⊢
    rw [ih, ZMod.natCast_mod]; push_cast; rfl

theorem DirectHash_cast (r : RabinKarp) (s : List Byte) :
    ((DirectHash r s : Nat) : Word) = hornerW (r.BaseMultiplier : Word) s 0 := by
  have h := foldl_cast r.BaseMultiplier s 0
  simpa [DirectHash] using h

theorem foldl_lt (B : Nat) (s : List Byte) (acc : Nat) (hacc : acc < wordMod) :
    s.foldl (fun acc b => (acc * B + b.val) % wordMod) acc < wordMod := by
  induction s generalizing acc with
  | nil => simpa using hacc
  | cons x t ih => exact ih _ (Nat.mod_lt _ wordMod_pos)

theorem DirectHash_lt (r : RabinKarp) (s : List Byte) : DirectHash r s < wordMod :=
  foldl_lt _ _ 0 wordMod_pos

theorem subWrap_cast (x y : Nat) : ((subWrap x y : Nat) : Word) = (x : Word) - (y : Word) := by
  unfold subWrap
  rw [ZMod.natCast_mod]
  have hy : y % wordMod ≤ wordMod := (Nat.mod_lt _ wordMod_pos).le
  push_cast [Nat.cast_sub hy]
  rw [ZMod.natCast_mod, ZMod.natCast_mod, wordMod_cast]; ring

theorem RollNext_cast (r : RabinKarp) (h : Nat) (o i : Byte) :
    ((RollNext r h o i : Nat) : Word)
      = ((h : Word) - (removal r o : Word)) * (r.BaseMultiplier : Word) + (i.val : Word) := by
  unfold RollNext
  rw [ZMod.natCast_mod]; push_cast [subWrap_cast]; rfl

theorem RollNext_lt (r : RabinKarp) (h : Nat) (o i : Byte) : RollNext r h o i < wordMod :=
  Nat.mod_lt _ wordMod_pos

theorem removal_build (a w : Nat) (b : Byte) :
    removal (buildRabinKarp a w) b = b.val * (a % wordMod) ^ (w - 1) % wordMod := by
  unfold removal buildRabinKarp
  simp only
  rw [List.getD_eq_getElem?_getD, List.getElem?_map, List.getElem?_range b.isLt]
  simp [powWrap_eq]

theorem removal_build_cast (a w : Nat) (b : Byte) :
    ((removal (buildRabinKarp a w) b : Nat) : Word)
      = (b.val : Word) * (((buildRabinKarp a w).BaseMultiplier : Nat) : Word) ^ (w - 1) := by
  rw [removal_build, ZMod.natCast_mod]; push_cast; rfl

theorem NewRabinKarp_ok {a : Nat} {n : Int} {r : RabinKarp} (h : NewRabinKarp a n = .ok r) :
    0 < n ∧ r = buildRabinKarp a n.toNat := by
  unfold NewRabinKarp at h
  split at h
  · cases h
  · injection h with h
    exact ⟨by omega, h.symm⟩

/-- The telescoping step for a hasher produced by the construction. -/
theorem roll_build (a w : Nat) (x b : Byte) (t : List Byte) (ht : t.length + 1 = w) :
    RollNext (buildRabinKarp a w) (DirectHash (buildRabinKarp a w) (x :: t)) x b
      = DirectHash (buildRabinKarp a w) (t ++ [b]) := by
  apply eq_of_cast_eq (RollNext_lt _ _ _ _) (DirectHash_lt _ _)
  rw [RollNext_cast, DirectHash_cast, DirectHash_cast, removal_build_cast, hornerW_cons,
    hornerW_snoc]
  have : w - 1 = t.length := by omega
  rw [this]; ring

theorem slice_head (p : List Byte) (j w : Nat) (hj : j < p.length) (hw : 1 ≤ w) :
    slice p j (j + w) = p.getD j 0 :: slice p (j + 1) (j + w) := by
  unfold slice
  have hlen : j < (p.take (j + w)).length := by
    rw [List.length_take]; omega
  rw [List.drop_eq_getElem_cons hlen, List.getElem_take, List.getD_eq_getElem p 0 hj]

theorem slice_snoc (p : List Byte) (j e : Nat) (he : e < p.length) (hje : j ≤ e) :
    slice p j e ++ [p.getD e 0] = slice p j (e + 1) := by
  unfold slice
  have hlen : j ≤ (p.take e).length := by
    rw [List.length_take]; omega
  rw [List.getD_eq_getElem p 0 he, List.take_succ, List.getElem?_eq_getElem he,
    List.drop_append_of_le_length hlen]
  rfl

theorem slice_length (p : List Byte) (i j : Nat) (hj : j ≤ p.length) :
    (slice p i j).length = j - i := by
  unfold slice
  rw [List.length_drop, List.length_take]; omega

theorem slice_zero (p : List Byte) (w : Nat) : slice p 0 w = p.take w := by
  simp [slice]

/-- The roll loop touches neither the hasher nor the buffer. -/
theorem rollLoop_frame (k i : Nat) (s : BatchState) :
    (rollLoop k i s).hasher = s.hasher ∧ (rollLoop k i s).buffer = s.buffer := by
  induction k generalizing i s with
  | zero => exact ⟨rfl, rfl⟩
  | succ k ih =>
    rw [rollLoop]
    have h := ih (i + 1) (rollStep i s)
    exact ⟨h.1, h.2⟩

/-- One roll step moves the hash of window `j` to the hash of window `j+1`. -/
theorem rollStep_h (a w : Nat) (p : List Byte) (hw : 1 ≤ w) (j : Nat) (s : BatchState)
    (hh : s.hasher = buildRabinKarp a w) (hb : s.buffer = p)
    (hs : s.h = DirectHash (buildRabinKarp a w) (slice p j (j + w)))
    (hj : j + w < p.length) :
    (rollStep (j + 1) s).h = DirectHash (buildRabinKarp a w) (slice p (j + 1) (j + 1 + w)) := by
  have hW : (buildRabinKarp a w).WindowLength = w := rfl
  simp only [rollStep, hh, hb, hs, hW]
  have e1 : j + 1 - 1 = j := by omega
  have e2 : j + 1 + w - 1 = j + w := by omega
  rw [e1, e2, slice_head p j w (by omega) hw]
  rw [roll_build a w _ _ _ (by rw [slice_length _ _ _ (by omega)]; omega)]
  rw [slice_snoc p (j + 1) (j + w) hj (by omega)]
  have e3 : j + w + 1 = j + 1 + w := by omega
  rw [e3]

theorem rollStep_out (i : Nat) (s : BatchState) :
    (rollStep i s).out = s.out ++ [(rollStep i s).h] ∧ (rollStep i s).hasher = s.hasher
      ∧ (rollStep i s).buffer = s.buffer := ⟨rfl, rfl, rfl⟩

theorem rollLoop_out (a w : Nat) (p : List Byte) (hw : 1 ≤ w) (k j : Nat) (s : BatchState)
    (hh : s.hasher = buildRabinKarp a w) (hb : s.buffer = p)
    (hs : s.h = DirectHash (buildRabinKarp a w) (slice p j (j + w)))
    (hj : j + w + k ≤ p.length) :
    (rollLoop k (j + 1) s).out
      = s.out ++ (List.range k).map
          (fun m => DirectHash (buildRabinKarp a w) (slice p (j + 1 + m) (j + 1 + m + w))) := by
  induction k generalizing j s with
  | zero => simp [rollLoop]
  | succ k ih =>
    rw [rollLoop]
    have hstep := rollStep_h a w p hw j s hh hb hs (by omega)
    obtain ⟨ho, hh2, hb2⟩ := rollStep_out (j + 1) s
    rw [ih (j + 1) (rollStep (j + 1) s) (hh2.trans hh) (hb2.trans hb) hstep (by omega)]
    rw [ho, hstep, List.range_succ_eq_map, List.map_cons, List.map_map, List.append_assoc]
    congr 1
    simp only [List.singleton_append, Nat.add_zero, List.cons.injEq, true_and]
    apply List.map_congr_left
    intro m _
    simp only [Function.comp, Nat.succ_eq_add_one]
    have e : j + 1 + 1 + m = j + 1 + (m + 1) := by omega
    rw [e]

/-- Closed form of the batch computation for a constructed hasher. -/
theorem ComputeHashes_build (a w : Nat) (hw : 1 ≤ w) (p : List Byte) :
    ComputeHashes (buildRabinKarp a w) p
      = if p.length < w then []
        else (List.range (p.length - w + 1)).map
          (fun j => DirectHash (buildRabinKarp a w) (slice p j (j + w))) := by
  have hW : (buildRabinKarp a w).WindowLength = w := rfl
  unfold ComputeHashes runBatch
  rw [hW]
  split
  · rfl
  · rename_i hlt
    simp only
    rw [rollLoop_out a w p hw (p.length - w) 0 _ rfl rfl (by simp [slice_zero]) (by omega)]
    rw [List.range_succ_eq_map, List.map_cons, List.map_map]
    simp only [List.singleton_append, Nat.zero_add, slice_zero, List.cons.injEq, true_and]
    apply List.map_congr_left
    intro m _
    simp only [Function.comp, Nat.succ_eq_add_one]
    have e : 0 + 1 + m = m + 1 := by omega
    rw [e]

theorem ComputeHashes_length (r : RabinKarp) (p : List Byte) :
    (ComputeHashes r p).length
      = if p.length < r.WindowLength then 0 else p.length - r.WindowLength + 1 := by
  have key : ∀ (k i : Nat) (s : BatchState), (rollLoop k i s).out.length = s.out.length + k := by
    intro k
    induction k with
    | zero => intro i s; rfl
    | succ k ih =>
      intro i s
      rw [rollLoop, ih]
      simp [rollStep]; omega
  unfold ComputeHashes runBatch
  split
  · rfl
  · simp only [key]; simp; omega

/-- The unreduced polynomial sum of `polyHash`. -/
theorem polySum_cons (base : Nat) (x : Byte) (t : List Byte) :
    ((List.range (x :: t).length).map
        (fun k => ((x :: t).getD k 0).val * base ^ ((x :: t).length - 1 - k))).sum
      = x.val * base ^ t.length
        + ((List.range t.length).map
            (fun k => (t.getD k 0).val * base ^ (t.length - 1 - k))).sum := by
  rw [List.length_cons, List.range_succ_eq_map, List.map_cons, List.sum_cons, List.map_map]
  congr 1
  congr 1
  apply List.map_congr_left
  intro k _
  simp only [Function.comp, Nat.succ_eq_add_one, List.getD_cons_succ]
  have e : t.length + 1 - 1 - (k + 1) = t.length - 1 - k := by omega
  rw [e]

theorem polyHash_cast (base : Nat) (s : List Byte) :
    ((polyHash base s : Nat) : Word) = hornerW (base : Word) s 0 := by
  unfold polyHash
  rw [ZMod.natCast_mod]
  induction s with
  | nil => simp [hornerW]
  | cons x t ih =>
    rw [polySum_cons, hornerW_cons, Nat.cast_add, ih]
    push_cast
    rfl

/-- C1: rolling/direct equivalence.  For a hasher `r` produced by `NewRabinKarp`
(hence with window length `w ≥ 1`), a buffer `p` with `len(p) ≥ w` and an index
`i ≤ len(p) - w`, element `i` of `ComputeHashes(r, p)` is
`DirectHash(p[i:i+w])`, which is also what the test computes as
`ComputeHashes(r, p[i:i+w])[0]` on the same hasher. -/
theorem rolling_equals_direct (a : Nat) (n : Int) (r : RabinKarp) (p : List Byte) (i : Nat)
    (hr : NewRabinKarp a n = .ok r) (hlen : r.WindowLength ≤ p.length)
    (hi : i ≤ p.length - r.WindowLength) :
    (ComputeHashes r p)[i]? = some (DirectHash r (slice p i (i + r.WindowLength)))
      ∧ (ComputeHashes r (slice p i (i + r.WindowLength)))[0]?
          = some (DirectHash r (slice p i (i + r.WindowLength))) := by
  obtain ⟨hn, rfl⟩ := NewRabinKarp_ok hr
  have hW : (buildRabinKarp a n.toNat).WindowLength = n.toNat := rfl
  rw [hW] at hlen hi ⊢
  have hw : 1 ≤ n.toNat := by omega
  constructor
  · rw [ComputeHashes_build a _ hw, if_neg (by omega), List.getElem?_map,
      List.getElem?_range (by omega)]
    rfl
  · have hl : (slice p i (i + n.toNat)).length = n.toNat := by
      rw [slice_length _ _ _ (by omega)]; omega
    rw [ComputeHashes_build a _ hw, if_neg (by omega), hl, List.getElem?_map,
      List.getElem?_range (by omega)]
    simp only [Option.map_some', Nat.zero_add, slice_zero]
    have ht : (slice p i (i + n.toNat)).take n.toNat = slice p i (i + n.toNat) :=
      List.take_of_length_le (by omega)
    rw [ht]

/-- Witness for C1: window length 4, buffer `"abcde"`, index 1. -/
theorem rolling_equals_direct_witness :
    NewRabinKarp 0x97b548add41d5da1 4 = .ok (buildRabinKarp 0x97b548add41d5da1 4)
      ∧ (ComputeHashes (buildRabinKarp 0x97b548add41d5da1 4) abcde)[1]?
          = some (DirectHash (buildRabinKarp 0x97b548add41d5da1 4) (slice abcde 1 5))
      ∧ (ComputeHashes (buildRabinKarp 0x97b548add41d5da1 4) (slice abcde 1 5))[0]?
          = some (DirectHash (buildRabinKarp 0x97b548add41d5da1 4) (slice abcde 1 5)) :=
  ⟨rfl, rolling_equals_direct 0x97b548add41d5da1 4 (buildRabinKarp 0x97b548add41d5da1 4)
    abcde 1 rfl (by decide) (by decide)⟩

/-- C2: length law.  For every hasher with window length `w` and every buffer
`p` of length `n`, `ComputeHashes` returns exactly `max(0, n - w + 1)` values,
and for `n < w` it returns the empty sequence (a value, not an error). -/
theorem length_law (r : RabinKarp) (p : List Byte) :
    ((ComputeHashes r p).length : Int)
        = max 0 ((p.length : Int) - (r.WindowLength : Int) + 1)
      ∧ (p.length < r.WindowLength → ComputeHashes r p = []) := by
  have h := ComputeHashes_length r p
  constructor
  · rw [h]
    split
    · rw [max_eq_left (by omega)]; rfl
    · rw [max_eq_right (by omega)]; push_cast; omega
  · intro hlt
    rw [if_pos hlt] at h
    exact List.length_eq_zero.mp h

/-- Witness for C2: window length 4 and the 3-byte buffer `"abc"`. -/
theorem length_law_witness :
    ComputeHashes (buildRabinKarp 0x97b548add41d5da1 4) [97, 98, 99] = [] :=
  (length_law (buildRabinKarp 0x97b548add41d5da1 4) [97, 98, 99]).2 (by decide)

/-- C3: RollNext telescoping.  For a hasher `r` produced by `NewRabinKarp`
(window length `w ≥ 1`), a window of exactly `w` bytes and an incoming byte
`b`, rolling `DirectHash(window)` by removing `window[0]` and adding `b` gives
`DirectHash(window[1:] ++ [b])`; and `RollNext(h, out, in)` is
`(h - RemovalTable[out]) * BaseMultiplier + in` modulo 2^64. -/
theorem rollNext_telescopes (a : Nat) (n : Int) (r : RabinKarp) (window : List Byte) (b : Byte)
    (hr : NewRabinKarp a n = .ok r) (hw : window.length = r.WindowLength) :
    RollNext r (DirectHash r window) (window.getD 0 0) b = DirectHash r (window.drop 1 ++ [b])
      ∧ ∀ (h : Nat) (out inc : Byte),
          ((RollNext r h out inc : Nat) : Int)
            = (((h : Int) - (removal r out : Int)) * (r.BaseMultiplier : Int) + (inc.val : Int))
                % (2 : Int) ^ 64 := by
  obtain ⟨hn, rfl⟩ := NewRabinKarp_ok hr
  have hW : (buildRabinKarp a n.toNat).WindowLength = n.toNat := rfl
  rw [hW] at hw
  constructor
  · cases window with
    | nil => simp at hw; omega
    | cons x t =>
      simp only [List.getD_cons_zero, List.drop_succ_cons, List.drop_zero]
      exact roll_build a n.toNat x b t (by simpa using hw)
  · intro h out inc
    have hM : ((wordMod : Nat) : Int) = (2 : Int) ^ 64 := by simp [wordMod]
    have key : (((RollNext (buildRabinKarp a n.toNat) h out inc : Nat) : Int) : Word)
        = (((((h : Int) - (removal (buildRabinKarp a n.toNat) out : Int))
              * ((buildRabinKarp a n.toNat).BaseMultiplier : Int) + (inc.val : Int)) : Int) : Word) := by
      push_cast
      exact RollNext_cast _ h out inc
    have h2 := (ZMod.intCast_eq_intCast_iff _ _ wordMod).mp key
    have h3 := h2.eq
    rw [hM] at h3
    rw [← h3]
    symm
    apply Int.emod_eq_of_lt (by positivity)
    have := RollNext_lt (buildRabinKarp a n.toNat) h out inc
    rw [← hM]
    exact_mod_cast this

/-- Witness for C3: window length 4, window `"abcd"`, incoming byte `'e'`. -/
theorem rollNext_telescopes_witness :
    RollNext (buildRabinKarp 0x97b548add41d5da1 4)
        (DirectHash (buildRabinKarp 0x97b548add41d5da1 4) [97, 98, 99, 100]) 97 101
      = DirectHash (buildRabinKarp 0x97b548add41d5da1 4) [98, 99, 100, 101] :=
  (rollNext_telescopes 0x97b548add41d5da1 4 (buildRabinKarp 0x97b548add41d5da1 4)
    [97, 98, 99, 100] 101 rfl rfl).1

/-- C6: DirectHash equals the polynomial reference.  For every byte slice `s`
the Horner loop returns `(Σ s[k] * BaseMultiplier^(len(s)-1-k)) mod 2^64`; the
empty slice hashes to 0; the function is total. -/
theorem directHash_eq_polyHash (r : RabinKarp) (s : List Byte) :
    DirectHash r s = polyHash r.BaseMultiplier s ∧ DirectHash r [] = 0 := by
  refine ⟨?_, rfl⟩
  have hlt : polyHash r.BaseMultiplier s < wordMod := Nat.mod_lt _ wordMod_pos
  apply eq_of_cast_eq (DirectHash_lt r s) hlt
  rw [DirectHash_cast, polyHash_cast]

end Hash

namespace Lzma

/-- Bitwise or of two numbers with disjoint bits is their sum. -/
theorem or_eq_add (k a b : Nat) (ha : a % 2 ^ k = 0) (hb : b < 2 ^ k) : a ||| b = a + b := by
  have h := Nat.mul_add_lt_is_or hb (a / 2 ^ k)
  have e : 2 ^ k * (a / 2 ^ k) = a := by
    have := Nat.div_add_mod a (2 ^ k)
    omega
  rw [e] at h
  exact h.symm

theorem uint32LE_cons (b0 b1 b2 b3 : Byte) (rest : List Byte) :
    uint32LE (b0 :: b1 :: b2 :: b3 :: rest)
      = some (b0.val + 256 * b1.val + 65536 * b2.val + 16777216 * b3.val) := by
  have h0 := b0.isLt
  have h1 := b1.isLt
  have h2 := b2.isLt
  have h3 := b3.isLt
  simp only [uint32LE, index, List.getElem?_cons_succ, List.getElem?_cons_zero, Option.bind_eq_bind,
    Option.some_bind, Option.pure_def, Nat.shiftLeft_eq, Option.some.injEq]
  norm_num
  rw [Nat.mod_eq_of_lt (by omega), Nat.mod_eq_of_lt (by omega), Nat.mod_eq_of_lt (by omega)]
  rw [or_eq_add 24 (b3.val * 16777216) _ (by omega) (by omega)]
  rw [or_eq_add 16 (b3.val * 16777216 + _) _ (by omega) (by omega)]
  rw [or_eq_add 8 (b3.val * 16777216 + _ + _) _ (by omega) (by omega)]
  omega

theorem uint64LE_cons (b0 b1 b2 b3 b4 b5 b6 b7 : Byte) (rest : List Byte) :
    uint64LE (b0 :: b1 :: b2 :: b3 :: b4 :: b5 :: b6 :: b7 :: rest)
      = some (b0.val + 2 ^ 8 * b1.val + 2 ^ 16 * b2.val + 2 ^ 24 * b3.val + 2 ^ 32 * b4.val
          + 2 ^ 40 * b5.val + 2 ^ 48 * b6.val + 2 ^ 56 * b7.val) := by
  have h0 := b0.isLt
  have h1 := b1.isLt
  have h2 := b2.isLt
  have h3 := b3.isLt
  have h4 := b4.isLt
  have h5 := b5.isLt
  have h6 := b6.isLt
  have h7 := b7.isLt
  simp only [uint64LE, index, List.getElem?_cons_succ, List.getElem?_cons_zero, Option.bind_eq_bind,
    Option.some_bind, Option.pure_def, Nat.shiftLeft_eq, Option.some.injEq]
  norm_num
  rw [Nat.mod_eq_of_lt (by omega), Nat.mod_eq_of_lt (by omega), Nat.mod_eq_of_lt (by omega),
    Nat.mod_eq_of_lt (by omega), Nat.mod_eq_of_lt (by omega), Nat.mod_eq_of_lt (by omega),
    Nat.mod_eq_of_lt (by omega)]
  rw [or_eq_add 56 (b7.val * 72057594037927936) _ (by omega) (by omega)]
  rw [or_eq_add 48 (b7.val * 72057594037927936 + _) _ (by omega) (by omega)]
  rw [or_eq_add 40 (b7.val * 72057594037927936 + _ + _) _ (by omega) (by omega)]
  rw [or_eq_add 32 (b7.val * 72057594037927936 + _ + _ + _) _ (by omega) (by omega)]
  rw [or_eq_add 24 (b7.val * 72057594037927936 + _ + _ + _ + _) _ (by omega) (by omega)]
  rw [or_eq_add 16 (b7.val * 72057594037927936 + _ + _ + _ + _ + _) _ (by omega) (by omega)]
  rw [or_eq_add 8 (b7.val * 72057594037927936 + _ + _ + _ + _ + _ + _) _ (by omega) (by omega)]
  omega

/-- What `marshalBinary` returns, by cases on its two checks. -/
theorem marshalBinary_eq {P : Type} (env : Env P) (h : Header P) :
    marshalBinary env h
      = match env.Verify h.Properties with
        | some err => some (none, some err)
        | none =>
          if ¬ (0 ≤ h.DictCap ∧ h.DictCap ≤ env.MaxDictCap) then
            some (none, some ("lzma: DictCap " ++ toString h.DictCap ++ " out of range"))
          else
            some (some (headerBytes (env.Code h.Properties) (uint32 h.DictCap)
              (sizeField h.Size)), none) := by
  unfold marshalBinary
  cases env.Verify h.Properties with
  | some err => rfl
  | none =>
    simp only
    split
    · rfl
    · simp [assign, withSlice, putUint32LE, putUint64LE, headerBytes, List.replicate]

theorem marshalBinary_ok {P : Type} (env : Env P) (h : Header P)
    (hv : env.Verify h.Properties = none) (hd : 0 ≤ h.DictCap ∧ h.DictCap ≤ env.MaxDictCap) :
    marshalBinary env h
      = some (some (headerBytes (env.Code h.Properties) (uint32 h.DictCap)
          (sizeField h.Size)), none) := by
  rw [marshalBinary_eq, hv]
  simp only
  rw [if_neg (by simpa using hd)]

/-- A successful return of `marshalBinary` comes from a verified header with a
dictionary capacity in range, and is the 13-byte layout. -/
theorem marshalBinary_success {P : Type} (env : Env P) (h : Header P)
    (od : Option (List Byte)) (hm : marshalBinary env h = some (od, none)) :
    env.Verify h.Properties = none ∧ (0 ≤ h.DictCap ∧ h.DictCap ≤ env.MaxDictCap)
      ∧ od = some (headerBytes (env.Code h.Properties) (uint32 h.DictCap)
          (sizeField h.Size)) := by
  rw [marshalBinary_eq] at hm
  cases hv : env.Verify h.Properties with
  | some err => rw [hv] at hm; simp at hm
  | none =>
    rw [hv] at hm
    simp only at hm
    by_cases hd : 0 ≤ h.DictCap ∧ h.DictCap ≤ env.MaxDictCap
    · rw [if_neg (by simpa using hd)] at hm
      simp only [Option.some.injEq, Prod.mk.injEq, and_true] at hm
      exact ⟨rfl, hd, hm.symm⟩
    · rw [if_pos hd] at hm
      simp at hm

theorem toByte_val (x : Nat) : (toByte x).val = x % 256 := rfl

theorem sizeField_lt (size : Int) : sizeField size < 2 ^ 64 := by
  unfold sizeField uint64 noHeaderSize
  split
  · have := Int.emod_lt_of_pos size (show (0 : Int) < 2 ^ 64 by norm_num)
    have := Int.emod_nonneg size (show (2 : Int) ^ 64 ≠ 0 by norm_num)
    omega
  · norm_num

theorem uint32_lt (x : Int) : uint32 x < 2 ^ 32 := by
  unfold uint32
  have := Int.emod_lt_of_pos x (show (0 : Int) < 2 ^ 32 by norm_num)
  have := Int.emod_nonneg x (show (2 : Int) ^ 32 ≠ 0 by norm_num)
  omega

/-- The lowest base-256 digit split off a reduction modulo `256 * m`. -/
theorem split_byte (x m : Nat) : x % (256 * m) = x % 256 + 256 * (x / 256 % m) := Nat.mod_mul

/-- The four little-endian base-256 digits of a 32-bit value. -/
theorem le32_digits (x : Nat) (hx : x < 2 ^ 32) :
    x % 256 + 256 * (x / 2 ^ 8 % 256) + 65536 * (x / 2 ^ 16 % 256)
      + 16777216 * (x / 2 ^ 24 % 256) = x := by
  have d1 : x / 2 ^ 8 = x / 256 := rfl
  have d2 : x / 2 ^ 16 = x / 256 / 256 := (Nat.div_div_eq_div_mul x 256 256).symm
  have d3 : x / 2 ^ 24 = x / 256 / 256 / 256 := by
    rw [Nat.div_div_eq_div_mul, Nat.div_div_eq_div_mul]
    rfl
  have e : x % (256 * (256 * (256 * 256))) = x := Nat.mod_eq_of_lt hx
  rw [split_byte, split_byte, split_byte] at e
  rw [d1, d2, d3]
  nth_rewrite 5 [← e]
  ring

/-- The eight little-endian base-256 digits of a 64-bit value. -/
theorem le64_digits (x : Nat) (hx : x < 2 ^ 64) :
    x % 256 + 2 ^ 8 * (x / 2 ^ 8 % 256) + 2 ^ 16 * (x / 2 ^ 16 % 256)
      + 2 ^ 24 * (x / 2 ^ 24 % 256) + 2 ^ 32 * (x / 2 ^ 32 % 256) + 2 ^ 40 * (x / 2 ^ 40 % 256)
      + 2 ^ 48 * (x / 2 ^ 48 % 256) + 2 ^ 56 * (x / 2 ^ 56 % 256) = x := by
  have d1 : x / 2 ^ 8 = x / 256 := rfl
  have d2 : x / 2 ^ 16 = x / 256 / 256 := (Nat.div_div_eq_div_mul x 256 256).symm
  have d3 : x / 2 ^ 24 = x / 256 / 256 / 256 := by
    rw [Nat.div_div_eq_div_mul, Nat.div_div_eq_div_mul]
    rfl
  have d4 : x / 2 ^ 32 = x / 256 / 256 / 256 / 256 := by
    rw [Nat.div_div_eq_div_mul, Nat.div_div_eq_div_mul, Nat.div_div_eq_div_mul]
    rfl
  have d5 : x / 2 ^ 40 = x / 256 / 256 / 256 / 256 / 256 := by
    rw [Nat.div_div_eq_div_mul, Nat.div_div_eq_div_mul, Nat.div_div_eq_div_mul,
      Nat.div_div_eq_div_mul]
    rfl
  have d6 : x / 2 ^ 48 = x / 256 / 256 / 256 / 256 / 256 / 256 := by
    rw [Nat.div_div_eq_div_mul, Nat.div_div_eq_div_mul, Nat.div_div_eq_div_mul,
      Nat.div_div_eq_div_mul, Nat.div_div_eq_div_mul]
    rfl
  have d7 : x / 2 ^ 56 = x / 256 / 256 / 256 / 256 / 256 / 256 / 256 := by
    rw [Nat.div_div_eq_div_mul, Nat.div_div_eq_div_mul, Nat.div_div_eq_div_mul,
      Nat.div_div_eq_div_mul, Nat.div_div_eq_div_mul, Nat.div_div_eq_div_mul]
    rfl
  have e : x % (256 * (256 * (256 * (256 * (256 * (256 * (256 * 256))))))) = x :=
    Nat.mod_eq_of_lt hx
  rw [split_byte, split_byte, split_byte, split_byte, split_byte, split_byte, split_byte] at e
  rw [d1, d2, d3, d4, d5, d6, d7]
  nth_rewrite 9 [← e]
  ring

/-- Decoding the dictionary field of the layout gives back `d`. -/
theorem uint32LE_headerBytes (code : Byte) (d s : Nat) (hd : d < 2 ^ 32) :
    (sliceFrom (headerBytes code d s) 1).bind uint32LE = some d := by
  have e : sliceFrom (headerBytes code d s) 1
      = some [toByte d, toByte (d >>> 8), toByte (d >>> 16), toByte (d >>> 24),
          toByte s, toByte (s >>> 8), toByte (s >>> 16), toByte (s >>> 24),
          toByte (s >>> 32), toByte (s >>> 40), toByte (s >>> 48), toByte (s >>> 56)] := rfl
  rw [e, Option.some_bind, uint32LE_cons]
  simp only [toByte_val, Nat.shiftRight_eq_div_pow, Option.some.injEq]
  exact le32_digits d hd

/-- Decoding the size field of the layout gives back `s`. -/
theorem uint64LE_headerBytes (code : Byte) (d s : Nat) (hs : s < 2 ^ 64) :
    (sliceFrom (headerBytes code d s) 5).bind uint64LE = some s := by
  have e : sliceFrom (headerBytes code d s) 5
      = some [toByte s, toByte (s >>> 8), toByte (s >>> 16), toByte (s >>> 24),
          toByte (s >>> 32), toByte (s >>> 40), toByte (s >>> 48), toByte (s >>> 56)] := rfl
  rw [e, Option.some_bind, uint64LE_cons]
  simp only [toByte_val, Nat.shiftRight_eq_div_pow, Option.some.injEq]
  exact le64_digits s hs

/-- What `unmarshalBinary` does on 13 bytes whose property byte is `c`, whose
dictionary field decodes to `x` and whose size field decodes to `s`. -/
theorem unmarshalBinary_eq {P : Type} (env : Env P) (h0 : Header P) (data : List Byte)
    (c : Byte) (x s : Nat) (hlen : data.length = 13) (hc : index data 0 = some c)
    (hx : (sliceFrom data 1).bind uint32LE = some x)
    (hs : (sliceFrom data 5).bind uint64LE = some s) :
    unmarshalBinary env h0 data
      = match (env.PropertiesForCode c).2 with
        | some err => some ({ h0 with Properties := (env.PropertiesForCode c).1 }, some err)
        | none =>
          if toSigned env.intBits x < 0 then
            some ({ Properties := (env.PropertiesForCode c).1,
                    DictCap := toSigned env.intBits x, Size := h0.Size },
              some "LZMA header: dictionary capacity exceeds maximum integer")
          else if s = noHeaderSize then
            some ({ Properties := (env.PropertiesForCode c).1,
                    DictCap := toSigned env.intBits x, Size := -1 }, none)
          else if toSigned 64 s < 0 then
            some ({ Properties := (env.PropertiesForCode c).1,
                    DictCap := toSigned env.intBits x, Size := toSigned 64 s },
              some "LZMA header: uncompressed size out of int64 range")
          else
            some ({ Properties := (env.PropertiesForCode c).1,
                    DictCap := toSigned env.intBits x, Size := toSigned 64 s }, none) := by
  unfold unmarshalBinary
  rw [if_neg (by rw [hlen]; decide), hc]
  simp only [Option.bind_eq_bind, Option.some_bind, hx, hs, Option.pure_def]

theorem toSigned_small (bits x : Nat) (hb : 32 < bits) (hx : x < 2 ^ 32) :
    toSigned bits x = (x : Int) := by
  have h1 : 2 ^ 32 ≤ 2 ^ (bits - 1) := Nat.pow_le_pow_right (by decide) (by omega)
  have h2 : 2 ^ (bits - 1) ≤ 2 ^ bits := Nat.pow_le_pow_right (by decide) (by omega)
  have hm : x % 2 ^ bits = x := Nat.mod_eq_of_lt (by omega)
  unfold toSigned
  rw [hm, if_pos (by omega)]

theorem toSigned64_small (s : Nat) (hs : s < 2 ^ 63) : toSigned 64 s = (s : Int) := by
  unfold toSigned
  have hm : s % 2 ^ 64 = s := Nat.mod_eq_of_lt (by omega)
  rw [hm, if_pos (by simpa using hs)]

/-- What decoding the output of `marshalBinary` yields, for a header that
`marshalBinary` accepts: properties and dictionary capacity come back, and the
size comes back when it is positive, while every size `≤ 0` comes back as -1. -/
theorem unmarshal_marshal {P : Type} (env : Env P) (h h0 : Header P)
    (hv : env.Verify h.Properties = none) (hd : 0 ≤ h.DictCap ∧ h.DictCap ≤ env.MaxDictCap)
    (hmax : env.MaxDictCap < 2 ^ 32) (hbits : 32 < env.intBits)
    (hpc : env.PropertiesForCode (env.Code h.Properties) = (h.Properties, none))
    (hsz : h.Size < 2 ^ 63) :
    ∃ data, marshalBinary env h = some (some data, none)
      ∧ unmarshalBinary env h0 data
          = some ({ Properties := h.Properties, DictCap := h.DictCap,
                    Size := if 0 < h.Size then h.Size else -1 }, none) := by
  refine ⟨_, marshalBinary_ok env h hv hd, ?_⟩
  have hdl : uint32 h.DictCap = h.DictCap.toNat := by
    unfold uint32
    rw [Int.emod_eq_of_lt hd.1 (by omega)]
  have hdlt : h.DictCap.toNat < 2 ^ 32 := by omega
  rw [unmarshalBinary_eq env h0
    (headerBytes (env.Code h.Properties) (uint32 h.DictCap) (sizeField h.Size))
    (env.Code h.Properties) (uint32 h.DictCap) (sizeField h.Size)
    rfl rfl (uint32LE_headerBytes _ _ _ (uint32_lt _)) (uint64LE_headerBytes _ _ _ (sizeField_lt _))]
  rw [hpc]
  simp only
  rw [hdl, toSigned_small _ _ hbits hdlt]
  have hnn : ¬ ((h.DictCap.toNat : Int) < 0) := by omega
  rw [if_neg hnn]
  have hcast : ((h.DictCap.toNat : Nat) : Int) = h.DictCap := by omega
  rw [hcast]
  by_cases hpos : 0 < h.Size
  · have hsf : sizeField h.Size = h.Size.toNat := by
      unfold sizeField uint64
      rw [if_pos hpos, Int.emod_eq_of_lt hpos.le (by omega)]
    have hlt : h.Size.toNat < 2 ^ 63 := by omega
    have hne : h.Size.toNat ≠ noHeaderSize := by unfold noHeaderSize; omega
    rw [hsf, if_neg hne, toSigned64_small _ hlt, if_pos hpos]
    have hcs : ((h.Size.toNat : Nat) : Int) = h.Size := by omega
    rw [hcs, if_neg (by omega)]
  · have hsf : sizeField h.Size = noHeaderSize := by
      unfold sizeField
      rw [if_neg hpos]
    rw [hsf, if_pos rfl, if_neg hpos]

/-- C7: header round trip, evaluated where it breaks.  For a header that
`marshalBinary` accepts and whose `Size` is 0 (a given size, since only a
negative value means that no size is given), `marshalBinary` succeeds and
`unmarshalBinary` succeeds on its output, with the same `Properties` and
`DictCap`, but with `Size = -1` instead of 0: the size is not preserved. -/
theorem roundtrip_loses_size_zero {P : Type} (env : Env P) (h h0 : Header P)
    (hv : env.Verify h.Properties = none) (hd : 0 ≤ h.DictCap ∧ h.DictCap ≤ env.MaxDictCap)
    (hmax : env.MaxDictCap < 2 ^ 32) (hbits : 32 < env.intBits)
    (hpc : env.PropertiesForCode (env.Code h.Properties) = (h.Properties, none))
    (hsz : h.Size = 0) :
    ∃ data h1, marshalBinary env h = some (some data, none)
      ∧ unmarshalBinary env h0 data = some (h1, none)
      ∧ h1.Properties = h.Properties ∧ h1.DictCap = h.DictCap
      ∧ h1.Size = -1 ∧ h1.Size ≠ h.Size := by
  obtain ⟨data, hm, hu⟩ := unmarshal_marshal env h h0 hv hd hmax hbits hpc (by rw [hsz]; norm_num)
  rw [hsz] at hu
  refine ⟨data, _, hm, hu, rfl, rfl, ?_, ?_⟩
  · simp
  · rw [hsz]; simp

/-- Witness for C7: the header with property code 0x5D, an 8 MiB dictionary and
size 0 is written as 13 bytes that decode to the same header with size -1. -/
theorem roundtrip_loses_size_zero_witness :
    ∃ data h1, marshalBinary sampleEnv (sampleHeader 0) = some (some data, none)
      ∧ unmarshalBinary sampleEnv (sampleHeader 5) data = some (h1, none)
      ∧ h1.Properties = (sampleHeader 0).Properties ∧ h1.DictCap = (sampleHeader 0).DictCap
      ∧ h1.Size = -1 ∧ h1.Size ≠ (sampleHeader 0).Size :=
  roundtrip_loses_size_zero sampleEnv (sampleHeader 0) (sampleHeader 5) (by decide)
    (by decide) (by decide) (by decide) (by decide) (by decide)

/-- C8: size sentinel on encode, evaluated where it breaks.  For a header with
`Size = 0`, which is not negative, every successful `marshalBinary` writes the
reserved all-ones value 0xFFFFFFFFFFFFFFFF into the size field (bytes 5..12 are
all 0xFF), not 0 encoded as a little-endian uint64. -/
theorem size_zero_written_as_sentinel {P : Type} (env : Env P) (h : Header P)
    (od : Option (List Byte)) (hsz : h.Size = 0)
    (hm : marshalBinary env h = some (od, none)) :
    ∃ data, od = some data
      ∧ ¬ (h.Size < 0)
      ∧ (sliceFrom data 5).bind uint64LE = some 0xFFFFFFFFFFFFFFFF
      ∧ (sliceFrom data 5).bind uint64LE ≠ some (uint64 h.Size)
      ∧ data.drop 5 = List.replicate 8 (255 : Byte) := by
  obtain ⟨_, _, rfl⟩ := marshalBinary_success env h od hm
  refine ⟨_, rfl, by omega, ?_, ?_, ?_⟩
  · rw [uint64LE_headerBytes _ _ _ (sizeField_lt _), hsz]; rfl
  · rw [uint64LE_headerBytes _ _ _ (sizeField_lt _), hsz]; decide
  · rw [hsz]; rfl

/-- Witness for C8: the header with property code 0x5D, an 8 MiB dictionary and
size 0. -/
theorem size_zero_written_as_sentinel_witness :
    ∃ data, some [93, 0, 0, 128, 0, 255, 255, 255, 255, 255, 255, 255, 255] = some data
      ∧ ¬ ((sampleHeader 0).Size < 0)
      ∧ (sliceFrom data 5).bind uint64LE = some 0xFFFFFFFFFFFFFFFF
      ∧ (sliceFrom data 5).bind uint64LE ≠ some (uint64 (sampleHeader 0).Size)
      ∧ data.drop 5 = List.replicate 8 (255 : Byte) :=
  size_zero_written_as_sentinel sampleEnv (sampleHeader 0)
    (some [93, 0, 0, 128, 0, 255, 255, 255, 255, 255, 255, 255, 255]) rfl (by decide)

/-- C9: header layout.  Whenever `marshalBinary` returns without error, its
data is 13 (= `headerLen`) bytes long, byte 0 is `Properties.Code()`, bytes
1..4 are the little-endian base-256 digits of `DictCap` (byte 1 the least
significant; they decode to `DictCap` when `MaxDictCap` fits 32 bits), and
bytes 5..12 are the little-endian digits of the 8-byte size field. -/
theorem header_layout {P : Type} (env : Env P) (h : Header P) (od : Option (List Byte))
    (hm : marshalBinary env h = some (od, none)) :
    ∃ data, od = some data
      ∧ data.length = 13 ∧ data.length = headerLen
      ∧ data[0]? = some (env.Code h.Properties)
      ∧ (∀ k, k < 4 → (data[1 + k]?).map Fin.val = some (h.DictCap.toNat / 256 ^ k % 256))
      ∧ (∀ k, k < 8 → (data[5 + k]?).map Fin.val = some (sizeField h.Size / 256 ^ k % 256))
      ∧ (env.MaxDictCap < 2 ^ 32 → (sliceFrom data 1).bind uint32LE = some h.DictCap.toNat)
      ∧ (sliceFrom data 5).bind uint64LE = some (sizeField h.Size) := by
  obtain ⟨_, hd, rfl⟩ := marshalBinary_success env h od hm
  have hu : uint32 h.DictCap = h.DictCap.toNat % 2 ^ 32 := by
    unfold uint32
    have := Int.emod_emod_of_dvd h.DictCap (dvd_refl ((2 : Int) ^ 32))
    omega
  refine ⟨_, rfl, rfl, rfl, rfl, ?_, ?_, ?_, uint64LE_headerBytes _ _ _ (sizeField_lt _)⟩
  · intro k hk
    rw [hu]
    interval_cases k <;>
      simp only [headerBytes, List.getElem?_cons_succ, List.getElem?_cons_zero, Option.map_some',
        toByte_val, Nat.shiftRight_eq_div_pow, Option.some.injEq] <;> omega
  · intro k hk
    interval_cases k <;>
      simp only [headerBytes, List.getElem?_cons_succ, List.getElem?_cons_zero, Option.map_some',
        toByte_val, Nat.shiftRight_eq_div_pow, Option.some.injEq] <;> omega
  · intro hmax
    have hlt : h.DictCap.toNat < 2 ^ 32 := by omega
    rw [uint32LE_headerBytes _ _ _ (uint32_lt _), hu, Nat.mod_eq_of_lt hlt]

/-- Witness for C9: the header with property code 0x5D, an 8 MiB dictionary and
size 0x0102030405060708. -/
theorem header_layout_witness :
    marshalBinary sampleEnv (sampleHeader 0x0102030405060708)
        = some (some [93, 0, 0, 128, 0, 8, 7, 6, 5, 4, 3, 2, 1], none)
      ∧ ∃ data, some [93, 0, 0, 128, 0, 8, 7, 6, 5, 4, 3, 2, 1] = some data
        ∧ data.length = 13 ∧ data.length = headerLen
        ∧ data[0]? = some (sampleEnv.Code (sampleHeader 0x0102030405060708).Properties)
        ∧ (∀ k, k < 4 → (data[1 + k]?).map Fin.val
            = some ((sampleHeader 0x0102030405060708).DictCap.toNat / 256 ^ k % 256))
        ∧ (∀ k, k < 8 → (data[5 + k]?).map Fin.val
            = some (sizeField (sampleHeader 0x0102030405060708).Size / 256 ^ k % 256))
        ∧ (sampleEnv.MaxDictCap < 2 ^ 32 → (sliceFrom data 1).bind uint32LE
            = some (sampleHeader 0x0102030405060708).DictCap.toNat)
        ∧ (sliceFrom data 5).bind uint64LE
            = some (sizeField (sampleHeader 0x0102030405060708).Size) :=
  ⟨by decide, header_layout sampleEnv (sampleHeader 0x0102030405060708)
    (some [93, 0, 0, 128, 0, 8, 7, 6, 5, 4, 3, 2, 1]) (by decide)⟩

/-- C10: `marshalBinary` returns an error if and only if `Properties.Verify()`
returns an error or `DictCap` lies outside `[0, MaxDictCap]`; whenever it
returns an error the data is nil; every other header, whatever its `Size`, is
marshalled successfully; and `marshalBinary` never panics. -/
theorem marshal_fails_iff {P : Type} (env : Env P) (h : Header P) :
    ((∃ od err, marshalBinary env h = some (od, some err))
        ↔ (env.Verify h.Properties ≠ none ∨ ¬ (0 ≤ h.DictCap ∧ h.DictCap ≤ env.MaxDictCap)))
      ∧ (∀ od err, marshalBinary env h = some (od, some err) → od = none)
      ∧ (env.Verify h.Properties = none → 0 ≤ h.DictCap → h.DictCap ≤ env.MaxDictCap →
          ∃ data, marshalBinary env h = some (some data, none))
      ∧ marshalBinary env h ≠ none := by
  rw [marshalBinary_eq]
  cases hv : env.Verify h.Properties with
  | some e =>
    simp only
    refine ⟨⟨fun _ => Or.inl (by simp), fun _ => ⟨none, e, rfl⟩⟩, ?_, ?_, by simp⟩
    · intro od err heq
      simp only [Option.some.injEq, Prod.mk.injEq] at heq
      exact heq.1.symm
    · intro hc
      simp at hc
  | none =>
    simp only
    by_cases hd : 0 ≤ h.DictCap ∧ h.DictCap ≤ env.MaxDictCap
    · rw [if_neg (by simpa using hd)]
      refine ⟨⟨?_, ?_⟩, ?_, fun _ _ _ => ⟨_, rfl⟩, by simp⟩
      · rintro ⟨od, err, heq⟩
        simp at heq
      · rintro (hc | hc)
        · exact absurd rfl hc
        · exact absurd hd hc
      · intro od err heq
        simp at heq
    · rw [if_pos hd]
      refine ⟨⟨fun _ => Or.inr hd, fun _ => ⟨none, _, rfl⟩⟩, ?_, ?_, by simp⟩
      · intro od err heq
        simp only [Option.some.injEq, Prod.mk.injEq] at heq
        exact heq.1.symm
      · intro _ h1 h2
        exact absurd ⟨h1, h2⟩ hd

/-- Witness for C10: the sample header with size -7 is accepted. -/
theorem marshal_fails_iff_witness :
    ∃ data, marshalBinary sampleEnv (sampleHeader (-7)) = some (some data, none) :=
  (marshal_fails_iff sampleEnv (sampleHeader (-7))).2.2.1 (by decide) (by decide) (by decide)

end Lzma

namespace Hash

/-- Appending the next rolled value keeps the recurrence on the output. -/
theorem rolled_snoc (r : RabinKarp) (p : List Byte) (out : List Nat)
    (h : ∀ j, 1 ≤ j → j < out.length →
      out[j]? = some (RollNext r (out.getD (j - 1) 0) (p.getD (j - 1) 0)
        (p.getD (j + r.WindowLength - 1) 0))) :
    ∀ j, 1 ≤ j → j < (out ++ [RollNext r (out.getD (out.length - 1) 0)
        (p.getD (out.length - 1) 0) (p.getD (out.length + r.WindowLength - 1) 0)]).length →
      (out ++ [RollNext r (out.getD (out.length - 1) 0)
        (p.getD (out.length - 1) 0) (p.getD (out.length + r.WindowLength - 1) 0)])[j]?
        = some (RollNext r
            ((out ++ [RollNext r (out.getD (out.length - 1) 0)
              (p.getD (out.length - 1) 0) (p.getD (out.length + r.WindowLength - 1) 0)]).getD
              (j - 1) 0)
            (p.getD (j - 1) 0) (p.getD (j + r.WindowLength - 1) 0)) := by
  intro j hj1 hj
  rw [List.length_append, List.length_singleton] at hj
  rw [List.getD_append _ _ _ _ (by omega)]
  by_cases hlt : j < out.length
  · rw [List.getElem?_append_left hlt]
    exact h j hj1 hlt
  · have hj2 : j = out.length := by omega
    subst hj2
    rw [List.getElem?_concat_length]

/-- The roll loop keeps the first output and the recurrence between
consecutive outputs. -/
theorem rollLoop_rolled (r : RabinKarp) (p : List Byte) (k i : Nat) (s : BatchState)
    (hh : s.hasher = r) (hb : s.buffer = p) (hi : 1 ≤ i) (hl : s.out.length = i)
    (hlast : s.out.getD (i - 1) 0 = s.h)
    (h : ∀ j, 1 ≤ j → j < s.out.length →
      s.out[j]? = some (RollNext r (s.out.getD (j - 1) 0) (p.getD (j - 1) 0)
        (p.getD (j + r.WindowLength - 1) 0))) :
    (rollLoop k i s).out[0]? = s.out[0]?
      ∧ ∀ j, 1 ≤ j → j < (rollLoop k i s).out.length →
          (rollLoop k i s).out[j]? = some (RollNext r ((rollLoop k i s).out.getD (j - 1) 0)
            (p.getD (j - 1) 0) (p.getD (j + r.WindowLength - 1) 0)) := by
  induction k generalizing i s with
  | zero => exact ⟨rfl, h⟩
  | succ k ih =>
    rw [rollLoop]
    have hout : (rollStep i s).out
        = s.out ++ [RollNext r (s.out.getD (s.out.length - 1) 0)
            (p.getD (s.out.length - 1) 0) (p.getD (s.out.length + r.WindowLength - 1) 0)] := by
      simp only [rollStep, hh, hb, hl, hlast]
    have hh2 : (rollStep i s).h = RollNext r (s.out.getD (s.out.length - 1) 0)
        (p.getD (s.out.length - 1) 0) (p.getD (s.out.length + r.WindowLength - 1) 0) := by
      simp only [rollStep, hh, hb, hl, hlast]
    have hl2 : (rollStep i s).out.length = i + 1 := by
      rw [hout, List.length_append, List.length_singleton, hl]
    have hlast2 : (rollStep i s).out.getD (i + 1 - 1) 0 = (rollStep i s).h := by
      rw [hh2, hout]
      have e : i + 1 - 1 = s.out.length := by omega
      rw [e, List.getD_eq_getElem?_getD, List.getElem?_concat_length]
      rfl
    have hrec := rolled_snoc r p s.out h
    rw [← hout] at hrec
    obtain ⟨h0, hr⟩ := ih (i + 1) (rollStep i s) hh hb (by omega) hl2 hlast2 hrec
    refine ⟨?_, hr⟩
    rw [h0, hout, List.getElem?_append_left (by omega)]

/-- C12: batch recurrence.  For every hasher and every buffer `p` with
`len(p) ≥ w`, element 0 of `ComputeHashes(hasher, p)` is `DirectHash(p[0:w])`
and, for every `i` with `1 ≤ i ≤ len(p) - w`, element `i` is
`RollNext(element i-1, p[i-1], p[i+w-1])`. -/
theorem batch_recurrence (r : RabinKarp) (p : List Byte) (hlen : r.WindowLength ≤ p.length) :
    (ComputeHashes r p)[0]? = some (DirectHash r (slice p 0 r.WindowLength))
      ∧ ∀ i, 1 ≤ i → i ≤ p.length - r.WindowLength →
          ∃ prev, (ComputeHashes r p)[i - 1]? = some prev
            ∧ (ComputeHashes r p)[i]? = some (RollNext r prev (p.getD (i - 1) 0)
                (p.getD (i + r.WindowLength - 1) 0)) := by
  have hL := ComputeHashes_length r p
  rw [if_neg (by omega)] at hL
  have key := rollLoop_rolled r p (p.length - r.WindowLength) 1
    { hasher := r, buffer := p, h := DirectHash r (p.take r.WindowLength),
      out := [DirectHash r (p.take r.WindowLength)] } rfl rfl (by omega) rfl rfl
    (by intro j hj1 hj; simp at hj; omega)
  have hCH : ComputeHashes r p
      = (rollLoop (p.length - r.WindowLength) 1
          { hasher := r, buffer := p, h := DirectHash r (p.take r.WindowLength),
            out := [DirectHash r (p.take r.WindowLength)] }).out := by
    unfold ComputeHashes runBatch
    rw [if_neg (by omega)]
  rw [← hCH] at key
  obtain ⟨h0, hr⟩ := key
  refine ⟨?_, ?_⟩
  · rw [h0, slice_zero]
    rfl
  · intro i hi1 hi2
    have hlt : i - 1 < (ComputeHashes r p).length := by omega
    refine ⟨(ComputeHashes r p)[i - 1], List.getElem?_eq_getElem hlt, ?_⟩
    rw [hr i hi1 (by omega), List.getD_eq_getElem _ 0 hlt]

/-- Witness for C12: window length 4 and the buffer `"abcde"`: two values,
`value[1] = RollNext(value[0], 'a', 'e') = DirectHash("bcde")`. -/
theorem batch_recurrence_witness :
    (ComputeHashes (buildRabinKarp 0x97b548add41d5da1 4) abcde).length = 2
      ∧ (ComputeHashes (buildRabinKarp 0x97b548add41d5da1 4) abcde)[0]?
          = some (DirectHash (buildRabinKarp 0x97b548add41d5da1 4) [97, 98, 99, 100])
      ∧ (ComputeHashes (buildRabinKarp 0x97b548add41d5da1 4) abcde)[1]?
          = some (DirectHash (buildRabinKarp 0x97b548add41d5da1 4) [98, 99, 100, 101])
      ∧ ∃ prev, (ComputeHashes (buildRabinKarp 0x97b548add41d5da1 4) abcde)[1 - 1]? = some prev
          ∧ (ComputeHashes (buildRabinKarp 0x97b548add41d5da1 4) abcde)[1]?
              = some (RollNext (buildRabinKarp 0x97b548add41d5da1 4) prev 97 101) :=
  ⟨by decide, by decide, by decide,
   (batch_recurrence (buildRabinKarp 0x97b548add41d5da1 4) abcde (by decide)).2 1
     (by decide) (by decide)⟩

/-- C13: the removal table equals on-demand exponentiation.  For a hasher
produced by `NewRabinKarp` (window length `w ≥ 1`) the table has 256 entries,
entry `b` is `(b * BaseMultiplier^(w-1)) mod 2^64` for every byte value `b`,
and `RollNext` with the table lookup equals `RollNext` with the coefficient
recomputed each time. -/
theorem removalTable_closed_form (a : Nat) (n : Int) (r : RabinKarp)
    (hr : NewRabinKarp a n = .ok r) :
    r.RemovalTable.length = 256
      ∧ (∀ b : Byte, r.RemovalTable[b.val]?
          = some (b.val * r.BaseMultiplier ^ (r.WindowLength - 1) % 2 ^ 64))
      ∧ (∀ b : Byte, removal r b = b.val * r.BaseMultiplier ^ (r.WindowLength - 1) % 2 ^ 64)
      ∧ ∀ (h : Nat) (out inc : Byte), RollNext r h out inc = RollNextOnDemand r h out inc := by
  obtain ⟨_, rfl⟩ := NewRabinKarp_ok hr
  have hrem : ∀ b : Byte, removal (buildRabinKarp a n.toNat) b
      = b.val * (buildRabinKarp a n.toNat).BaseMultiplier
          ^ ((buildRabinKarp a n.toNat).WindowLength - 1) % 2 ^ 64 :=
    fun b => removal_build a n.toNat b
  have hlen : (buildRabinKarp a n.toNat).RemovalTable.length = 256 := by
    simp [buildRabinKarp]
  refine ⟨hlen, ?_, hrem, ?_⟩
  · intro b
    have hb : b.val < (buildRabinKarp a n.toNat).RemovalTable.length := by
      rw [hlen]; exact b.isLt
    have h := hrem b
    unfold removal at h
    rw [List.getD_eq_getElem _ 0 hb] at h
    rw [List.getElem?_eq_getElem hb, h]
  · intro h out inc
    unfold RollNext RollNextOnDemand
    rw [hrem out]
    rfl

/-- Witness for C13: window length 4, the table entry of the byte `'a'`. -/
theorem removalTable_closed_form_witness :
    (buildRabinKarp 0x97b548add41d5da1 4).RemovalTable[(97 : Byte).val]?
      = some ((97 : Byte).val * (buildRabinKarp 0x97b548add41d5da1 4).BaseMultiplier
          ^ ((buildRabinKarp 0x97b548add41d5da1 4).WindowLength - 1) % 2 ^ 64) :=
  (removalTable_closed_form 0x97b548add41d5da1 4 (buildRabinKarp 0x97b548add41d5da1 4)
    rfl).2.1 97

end Hash

namespace Hash

end Hash

namespace Hash

/-- The checks are not idle: a hasher value whose table is too short makes the
checked run fail. -/
theorem ComputeHashesChecked_short_table :
    ComputeHashesChecked { WindowLength := 1, BaseMultiplier := 3, RemovalTable := [] } [1, 2]
      = none := by
  decide

end Hash

namespace Lzma

theorem leValue_four (b0 b1 b2 b3 : Byte) (rest : List Byte) :
    leValue 4 (b0 :: b1 :: b2 :: b3 :: rest)
      = b0.val + 256 * b1.val + 65536 * b2.val + 16777216 * b3.val := by
  simp only [leValue, List.getD_cons_zero, List.drop_succ_cons, List.drop_zero]
  ring

theorem leValue_eight (b0 b1 b2 b3 b4 b5 b6 b7 : Byte) (rest : List Byte) :
    leValue 8 (b0 :: b1 :: b2 :: b3 :: b4 :: b5 :: b6 :: b7 :: rest)
      = b0.val + 2 ^ 8 * b1.val + 2 ^ 16 * b2.val + 2 ^ 24 * b3.val + 2 ^ 32 * b4.val
          + 2 ^ 40 * b5.val + 2 ^ 48 * b6.val + 2 ^ 56 * b7.val := by
  simp only [leValue, List.getD_cons_zero, List.drop_succ_cons, List.drop_zero]
  ring

/-- A list with at least four elements, taken apart. -/
theorem exists_four (b : List Byte) (h : 4 ≤ b.length) :
    ∃ b0 b1 b2 b3 rest, b = b0 :: b1 :: b2 :: b3 :: rest := by
  rcases b with _ | ⟨b0, _ | ⟨b1, _ | ⟨b2, _ | ⟨b3, rest⟩⟩⟩⟩
  · simp at h
  · simp at h
  · simp at h
  · simp at h
  · exact ⟨b0, b1, b2, b3, rest, rfl⟩

/-- A list with at least eight elements, taken apart. -/
theorem exists_eight (b : List Byte) (h : 8 ≤ b.length) :
    ∃ b0 b1 b2 b3 b4 b5 b6 b7 rest, b = b0 :: b1 :: b2 :: b3 :: b4 :: b5 :: b6 :: b7 :: rest := by
  obtain ⟨b0, b1, b2, b3, r1, rfl⟩ := exists_four b (by omega)
  obtain ⟨b4, b5, b6, b7, r2, rfl⟩ := exists_four r1 (by simp at h; omega)
  exact ⟨b0, b1, b2, b3, b4, b5, b6, b7, r2, rfl⟩

theorem uint32LE_eq_leValue (b : List Byte) (h : 4 ≤ b.length) :
    uint32LE b = some (leValue 4 b) := by
  obtain ⟨b0, b1, b2, b3, rest, rfl⟩ := exists_four b h
  rw [uint32LE_cons, leValue_four]

theorem uint64LE_eq_leValue (b : List Byte) (h : 8 ≤ b.length) :
    uint64LE b = some (leValue 8 b) := by
  obtain ⟨b0, b1, b2, b3, b4, b5, b6, b7, rest, rfl⟩ := exists_eight b h
  rw [uint64LE_cons, leValue_eight]

theorem leValue_lt (n : Nat) (b : List Byte) : leValue n b < 256 ^ n := by
  induction n generalizing b with
  | zero => simp [leValue]
  | succ n ih =>
    have h1 := ih (b.drop 1)
    have h2 := (b.getD 0 0).isLt
    rw [leValue, pow_succ]
    omega

theorem leValue_four_lt (b : List Byte) : leValue 4 b < 2 ^ 32 := by
  have := leValue_lt 4 b
  norm_num at this ⊢
  exact this

theorem leValue_eight_lt (b : List Byte) : leValue 8 b < 2 ^ 64 := by
  have := leValue_lt 8 b
  norm_num at this ⊢
  exact this

/-- What `unmarshalBinary` does on any 13 bytes, in terms of the property byte
and the little-endian values of the two fields. -/
theorem unmarshalBinary_len13 {P : Type} (env : Env P) (h0 : Header P) (data : List Byte)
    (hlen : data.length = 13) :
    unmarshalBinary env h0 data
      = match (env.PropertiesForCode (data.getD 0 0)).2 with
        | some err =>
          some ({ h0 with Properties := (env.PropertiesForCode (data.getD 0 0)).1 }, some err)
        | none =>
          if toSigned env.intBits (leValue 4 (data.drop 1)) < 0 then
            some ({ Properties := (env.PropertiesForCode (data.getD 0 0)).1,
                    DictCap := toSigned env.intBits (leValue 4 (data.drop 1)), Size := h0.Size },
              some "LZMA header: dictionary capacity exceeds maximum integer")
          else if leValue 8 (data.drop 5) = noHeaderSize then
            some ({ Properties := (env.PropertiesForCode (data.getD 0 0)).1,
                    DictCap := toSigned env.intBits (leValue 4 (data.drop 1)), Size := -1 }, none)
          else if toSigned 64 (leValue 8 (data.drop 5)) < 0 then
            some ({ Properties := (env.PropertiesForCode (data.getD 0 0)).1,
                    DictCap := toSigned env.intBits (leValue 4 (data.drop 1)),
                    Size := toSigned 64 (leValue 8 (data.drop 5)) },
              some "LZMA header: uncompressed size out of int64 range")
          else
            some ({ Properties := (env.PropertiesForCode (data.getD 0 0)).1,
                    DictCap := toSigned env.intBits (leValue 4 (data.drop 1)),
                    Size := toSigned 64 (leValue 8 (data.drop 5)) }, none) := by
  have hc : index data 0 = some (data.getD 0 0) := by
    unfold index
    rw [List.getD_eq_getElem?_getD, List.getElem?_eq_getElem (by omega)]
    rfl
  have hx : (sliceFrom data 1).bind uint32LE = some (leValue 4 (data.drop 1)) := by
    unfold sliceFrom
    rw [if_pos (by omega), Option.some_bind]
    exact uint32LE_eq_leValue _ (by rw [List.length_drop]; omega)
  have hs : (sliceFrom data 5).bind uint64LE = some (leValue 8 (data.drop 5)) := by
    unfold sliceFrom
    rw [if_pos (by omega), Option.some_bind]
    exact uint64LE_eq_leValue _ (by rw [List.length_drop]; omega)
  exact unmarshalBinary_eq env h0 data _ _ _ hlen hc hx hs

end Lzma

namespace Lzma

theorem toSigned_32 (x : Nat) (hx : x < 2 ^ 32) :
    toSigned 32 x = if x < 2 ^ 31 then (x : Int) else (x : Int) - 2 ^ 32 := by
  unfold toSigned
  have hm : x % 2 ^ 32 = x := Nat.mod_eq_of_lt hx
  rw [hm]

theorem toSigned_64 (x : Nat) (hx : x < 2 ^ 64) :
    toSigned 64 x = if x < 2 ^ 63 then (x : Int) else (x : Int) - 2 ^ 64 := by
  unfold toSigned
  have hm : x % 2 ^ 64 = x := Nat.mod_eq_of_lt hx
  rw [hm]

/-- The dictionary capacity `int(uint32LE(data[1:]))` on the two widths of
`int`: the field value itself, except that a 32-bit `int` wraps the values
from `2^31` on to negative numbers. -/
theorem dictCap_cases (bits x : Nat) (hbits : bits = 32 ∨ bits = 64) (hx : x < 2 ^ 32) :
    (toSigned bits x = (x : Int) ∧ (bits = 64 ∨ x < 2 ^ 31))
      ∨ (toSigned bits x < 0 ∧ bits = 32 ∧ 2 ^ 31 ≤ x) := by
  rcases hbits with h | h
  · subst h
    rw [toSigned_32 x hx]
    by_cases hlt : x < 2 ^ 31
    · left
      rw [if_pos hlt]
      exact ⟨rfl, Or.inr hlt⟩
    · right
      rw [if_neg hlt]
      refine ⟨?_, rfl, by omega⟩
      have : (x : Int) < 2 ^ 32 := by exact_mod_cast hx
      omega
  · subst h
    left
    exact ⟨toSigned_small 64 x (by decide) hx, Or.inl rfl⟩

/-- C15: wrong-length rejection.  For every byte slice whose length is not 13
(shorter, longer or empty) `unmarshalBinary` returns the wrong-length error and
leaves the receiving header as it was; the outcome is the same for every such
slice, the empty one included, so no byte of the data is read. -/
theorem wrong_length_rejected {P : Type} (env : Env P) (h : Header P) (data : List Byte)
    (hlen : data.length ≠ 13) :
    unmarshalBinary env h data = some (h, some "lzma.unmarshalBinary: data has wrong length")
      ∧ unmarshalBinary env h data = unmarshalBinary env h []
      ∧ ∀ other : List Byte, other.length ≠ 13 →
          unmarshalBinary env h other = unmarshalBinary env h data := by
  have key : ∀ d : List Byte, d.length ≠ 13 →
      unmarshalBinary env h d = some (h, some "lzma.unmarshalBinary: data has wrong length") := by
    intro d hd
    have hd2 : d.length ≠ headerLen := hd
    unfold unmarshalBinary
    rw [if_pos hd2]
  refine ⟨key data hlen, ?_, ?_⟩
  · rw [key data hlen, key [] (by decide)]
  · intro other ho
    rw [key data hlen, key other ho]

/-- Witness for C15: a 3-byte slice leaves the sample header untouched. -/
theorem wrong_length_rejected_witness :
    unmarshalBinary sampleEnv (sampleHeader 5) [93, 0, 0]
      = some (sampleHeader 5, some "lzma.unmarshalBinary: data has wrong length") :=
  (wrong_length_rejected sampleEnv (sampleHeader 5) [93, 0, 0] (by decide)).1

/-- An error-free return of `unmarshalBinary` needs 13 bytes. -/
theorem length_of_success {P : Type} (env : Env P) (h0 h1 : Header P) (data : List Byte)
    (hs : unmarshalBinary env h0 data = some (h1, none)) : data.length = 13 := by
  by_contra hne
  have hne2 : data.length ≠ headerLen := hne
  unfold unmarshalBinary at hs
  rw [if_pos hne2] at hs
  simp at hs

end Lzma

namespace Lzma

/-- The outcome of `unmarshalBinary` on 13 bytes with an accepted property byte
and a dictionary capacity that the platform `int` holds: only the size field
decides between success and error. -/
theorem unmarshal_accepted {P : Type} (env : Env P) (h0 : Header P) (data : List Byte)
    (hlen : data.length = 13) (hp : (env.PropertiesForCode (data.getD 0 0)).2 = none)
    (hd : toSigned env.intBits (leValue 4 (data.drop 1)) = (leValue 4 (data.drop 1) : Int)) :
    unmarshalBinary env h0 data
      = if leValue 8 (data.drop 5) = noHeaderSize then
          some ({ Properties := (env.PropertiesForCode (data.getD 0 0)).1,
                  DictCap := (leValue 4 (data.drop 1) : Int), Size := -1 }, none)
        else if leValue 8 (data.drop 5) < 2 ^ 63 then
          some ({ Properties := (env.PropertiesForCode (data.getD 0 0)).1,
                  DictCap := (leValue 4 (data.drop 1) : Int),
                  Size := (leValue 8 (data.drop 5) : Int) }, none)
        else
          some ({ Properties := (env.PropertiesForCode (data.getD 0 0)).1,
                  DictCap := (leValue 4 (data.drop 1) : Int),
                  Size := (leValue 8 (data.drop 5) : Int) - 2 ^ 64 },
            some "LZMA header: uncompressed size out of int64 range") := by
  rw [unmarshalBinary_len13 env h0 data hlen, hp]
  simp only
  rw [hd, if_neg (by omega), toSigned_64 _ (leValue_eight_lt _)]
  by_cases h1 : leValue 8 (data.drop 5) = noHeaderSize
  · rw [if_pos h1, if_pos h1]
  · rw [if_neg h1, if_neg h1]
    by_cases h2 : leValue 8 (data.drop 5) < 2 ^ 63
    · rw [if_pos h2, if_pos h2, if_neg (by omega)]
    · have hlt := leValue_eight_lt (data.drop 5)
      have hneg : ((leValue 8 (data.drop 5) : Nat) : Int) - 2 ^ 64 < 0 := by
        have : ((leValue 8 (data.drop 5) : Nat) : Int) < 2 ^ 64 := by exact_mod_cast hlt
        omega
      rw [if_neg h2, if_neg h2, if_pos hneg]

/-- The outcome of `unmarshalBinary` on 13 bytes with an accepted property byte
when the dictionary capacity is negative as an `int`. -/
theorem unmarshal_negative_dictCap {P : Type} (env : Env P) (h0 : Header P) (data : List Byte)
    (hlen : data.length = 13) (hp : (env.PropertiesForCode (data.getD 0 0)).2 = none)
    (hd : toSigned env.intBits (leValue 4 (data.drop 1)) < 0) :
    unmarshalBinary env h0 data
      = some ({ Properties := (env.PropertiesForCode (data.getD 0 0)).1,
                DictCap := toSigned env.intBits (leValue 4 (data.drop 1)), Size := h0.Size },
          some "LZMA header: dictionary capacity exceeds maximum integer") := by
  rw [unmarshalBinary_len13 env h0 data hlen, hp]
  simp only
  rw [if_pos hd]

/-- The platform condition under which the dictionary capacity is kept as read:
a 64-bit `int`, or a 32-bit `int` and a field value below `2^31`. -/
theorem dictCap_kept (bits x : Nat) (hx : x < 2 ^ 32)
    (hint : bits = 64 ∨ (bits = 32 ∧ x < 2 ^ 31)) : toSigned bits x = (x : Int) := by
  rcases hint with h | ⟨h, hlt⟩
  · subst h
    exact toSigned_small 64 x (by decide) hx
  · subst h
    rw [toSigned_32 x hx, if_pos hlt]

/-- C11 as stated fails on a 32-bit `int`: the property byte 0x5D is accepted
and the size field is `v = 0 < 2^63`, but the dictionary field `2^31` is
negative as an `int`, so `unmarshalBinary` returns an error and not `Size = 0`. -/
theorem size_decoding_fails_on_int32 :
    (sampleEnv32.PropertiesForCode 93).2 = none
      ∧ leValue 8 (([93, 0, 0, 0, 128, 0, 0, 0, 0, 0, 0, 0, 0] : List Byte).drop 5) = 0
      ∧ unmarshalBinary sampleEnv32 (sampleHeader 5) [93, 0, 0, 0, 128, 0, 0, 0, 0, 0, 0, 0, 0]
          = some ({ Properties := 93, DictCap := -2147483648, Size := 5 },
              some "LZMA header: dictionary capacity exceeds maximum integer") := by
  decide

/-- C11, amended: size decoding.  For 13 bytes whose property byte is accepted
and whose dictionary capacity the platform `int` holds (a 64-bit `int`, or a
32-bit `int` and a field below `2^31`), with `v` the little-endian uint64 in
bytes 5..12: `unmarshalBinary` succeeds with `Size = -1` when `v = 2^64-1`,
succeeds with `Size = v` when `v < 2^63`, and returns an error exactly when
`2^63 ≤ v ≤ 2^64-2`; on success `Size` is -1 or non-negative. -/
theorem size_decoding {P : Type} (env : Env P) (h0 : Header P) (data : List Byte)
    (hlen : data.length = 13) (hp : (env.PropertiesForCode (data.getD 0 0)).2 = none)
    (hint : env.intBits = 64 ∨ (env.intBits = 32 ∧ leValue 4 (data.drop 1) < 2 ^ 31)) :
    (leValue 8 (data.drop 5) = 2 ^ 64 - 1 →
        ∃ h1, unmarshalBinary env h0 data = some (h1, none) ∧ h1.Size = -1)
      ∧ (leValue 8 (data.drop 5) < 2 ^ 63 →
          ∃ h1, unmarshalBinary env h0 data = some (h1, none)
            ∧ h1.Size = (leValue 8 (data.drop 5) : Int))
      ∧ ((∃ h1 e, unmarshalBinary env h0 data = some (h1, some e))
          ↔ (2 ^ 63 ≤ leValue 8 (data.drop 5) ∧ leValue 8 (data.drop 5) ≤ 2 ^ 64 - 2))
      ∧ (∀ h1, unmarshalBinary env h0 data = some (h1, none) → h1.Size = -1 ∨ 0 ≤ h1.Size) := by
  have hd := dictCap_kept env.intBits _ (leValue_four_lt (data.drop 1)) hint
  have hlt := leValue_eight_lt (data.drop 5)
  rw [unmarshal_accepted env h0 data hlen hp hd]
  by_cases h1 : leValue 8 (data.drop 5) = noHeaderSize
  · rw [if_pos h1]
    have h1b : leValue 8 (data.drop 5) = 2 ^ 64 - 1 := h1
    refine ⟨fun _ => ⟨_, rfl, rfl⟩, fun hv => by omega, ⟨?_, fun hv => by omega⟩, ?_⟩
    · rintro ⟨g, e, he⟩
      simp at he
    · intro g hg
      simp only [Option.some.injEq, Prod.mk.injEq, and_true] at hg
      left
      rw [← hg]
  · rw [if_neg h1]
    have h1b : leValue 8 (data.drop 5) ≠ 2 ^ 64 - 1 := h1
    by_cases h2 : leValue 8 (data.drop 5) < 2 ^ 63
    · rw [if_pos h2]
      refine ⟨fun hv => absurd hv h1b, fun _ => ⟨_, rfl, rfl⟩, ⟨?_, fun hv => by omega⟩, ?_⟩
      · rintro ⟨g, e, he⟩
        simp at he
      · intro g hg
        simp only [Option.some.injEq, Prod.mk.injEq, and_true] at hg
        right
        rw [← hg]
        exact Int.natCast_nonneg _
    · rw [if_neg h2]
      refine ⟨fun hv => absurd hv h1b, fun hv => absurd hv h2,
        ⟨fun _ => by omega, fun _ => ⟨_, _, rfl⟩⟩, ?_⟩
      intro g hg
      simp at hg

/-- Witness for C11, amended: on a 64-bit `int` the size field
0x0102030405060708 is decoded as that size. -/
theorem size_decoding_witness :
    ∃ h1, unmarshalBinary sampleEnv (sampleHeader 5) [93, 0, 0, 128, 0, 8, 7, 6, 5, 4, 3, 2, 1]
        = some (h1, none)
      ∧ h1.Size = (leValue 8 (([93, 0, 0, 128, 0, 8, 7, 6, 5, 4, 3, 2, 1] : List Byte).drop 5) : Int) :=
  (size_decoding sampleEnv (sampleHeader 5) [93, 0, 0, 128, 0, 8, 7, 6, 5, 4, 3, 2, 1]
    (by decide) (by decide) (Or.inl (by decide))).2.1 (by decide)

end Lzma

namespace Lzma

/-- C16 as stated fails on a 32-bit `int`: the property byte 0x5D is accepted
and the size field is `v = 2^63`, but the dictionary field `2^31` is negative
as an `int`; the call fails before the size is read, so `DictCap` is `-2^31`,
not the field value `2^31`, and `Size` keeps its old value 5. -/
theorem failure_overwrite_fails_on_int32 :
    (sampleEnv32.PropertiesForCode 93).2 = none
      ∧ leValue 4 (([93, 0, 0, 0, 128, 0, 0, 0, 0, 0, 0, 0, 128] : List Byte).drop 1) = 2 ^ 31
      ∧ leValue 8 (([93, 0, 0, 0, 128, 0, 0, 0, 0, 0, 0, 0, 128] : List Byte).drop 5) = 2 ^ 63
      ∧ unmarshalBinary sampleEnv32 (sampleHeader 5) [93, 0, 0, 0, 128, 0, 0, 0, 0, 0, 0, 0, 128]
          = some ({ Properties := 93, DictCap := -2147483648, Size := 5 },
              some "LZMA header: dictionary capacity exceeds maximum integer") := by
  decide

/-- C16, amended: failure of `unmarshalBinary` is not atomic.  For 13 bytes
whose property byte is accepted, whose dictionary capacity the platform `int`
holds (a 64-bit `int`, or a 32-bit `int` and a field below `2^31`) and whose
size field `v` satisfies `2^63 ≤ v ≤ 2^64-2`, `unmarshalBinary` returns an
error and leaves a receiver with the decoded properties, `DictCap` equal to the
little-endian value of bytes 1..4 and `Size = v - 2^64`, a negative value other
than -1, whatever the header held before. -/
theorem failure_not_atomic {P : Type} (env : Env P) (h0 : Header P) (data : List Byte)
    (hlen : data.length = 13) (hp : (env.PropertiesForCode (data.getD 0 0)).2 = none)
    (hint : env.intBits = 64 ∨ (env.intBits = 32 ∧ leValue 4 (data.drop 1) < 2 ^ 31))
    (hv1 : 2 ^ 63 ≤ leValue 8 (data.drop 5)) (hv2 : leValue 8 (data.drop 5) ≤ 2 ^ 64 - 2) :
    ∃ h1 e, unmarshalBinary env h0 data = some (h1, some e)
      ∧ h1.Properties = (env.PropertiesForCode (data.getD 0 0)).1
      ∧ h1.DictCap = (leValue 4 (data.drop 1) : Int)
      ∧ h1.Size = (leValue 8 (data.drop 5) : Int) - 2 ^ 64
      ∧ h1.Size < -1 := by
  have hd := dictCap_kept env.intBits _ (leValue_four_lt (data.drop 1)) hint
  have h1 : leValue 8 (data.drop 5) ≠ noHeaderSize := by unfold noHeaderSize; omega
  have h2 : ¬ leValue 8 (data.drop 5) < 2 ^ 63 := by omega
  rw [unmarshal_accepted env h0 data hlen hp hd, if_neg h1, if_neg h2]
  refine ⟨_, _, rfl, rfl, rfl, rfl, ?_⟩
  show ((leValue 8 (data.drop 5) : Nat) : Int) - 2 ^ 64 < -1
  have : ((leValue 8 (data.drop 5) : Nat) : Int) ≤ ((2 ^ 64 - 2 : Nat) : Int) := by
    exact_mod_cast hv2
  omega

/-- Witness for C16, amended: on a 64-bit `int`, the size field `2^63` over the
header with size 5. -/
theorem failure_not_atomic_witness :
    ∃ h1 e, unmarshalBinary sampleEnv (sampleHeader 5)
          [93, 0, 0, 128, 0, 0, 0, 0, 0, 0, 0, 0, 128] = some (h1, some e)
      ∧ h1.Properties = (sampleEnv.PropertiesForCode
          (([93, 0, 0, 128, 0, 0, 0, 0, 0, 0, 0, 0, 128] : List Byte).getD 0 0)).1
      ∧ h1.DictCap
          = (leValue 4 (([93, 0, 0, 128, 0, 0, 0, 0, 0, 0, 0, 0, 128] : List Byte).drop 1) : Int)
      ∧ h1.Size
          = (leValue 8 (([93, 0, 0, 128, 0, 0, 0, 0, 0, 0, 0, 0, 128] : List Byte).drop 5) : Int)
            - 2 ^ 64
      ∧ h1.Size < -1 :=
  failure_not_atomic sampleEnv (sampleHeader 5) [93, 0, 0, 128, 0, 0, 0, 0, 0, 0, 0, 0, 128]
    (by decide) (by decide) (Or.inl (by decide)) (by decide) (by decide)

/-- C17: decoded dictionary capacity range.  On every input on which
`unmarshalBinary` succeeds (13 bytes), `DictCap` is the unsigned little-endian
value of bytes 1..4 and lies in `[0, 2^32-1]`; and with a 64-bit `int` the
value assigned to `DictCap` is never negative, so for 13 bytes with an accepted
property byte the only error left is the size error: the "dictionary capacity
exceeds maximum integer" branch is unreachable. -/
theorem decoded_dictCap_range {P : Type} (env : Env P) (h0 h1 : Header P) (data : List Byte)
    (hbits : env.intBits = 32 ∨ env.intBits = 64)
    (hs : unmarshalBinary env h0 data = some (h1, none)) :
    data.length = 13
      ∧ h1.DictCap = (leValue 4 (data.drop 1) : Int)
      ∧ 0 ≤ h1.DictCap ∧ h1.DictCap ≤ 2 ^ 32 - 1
      ∧ (env.intBits = 64 → ∀ (d : List Byte) (g : Header P),
          ¬ (toSigned env.intBits (leValue 4 (d.drop 1)) < 0)
            ∧ (d.length = 13 → (env.PropertiesForCode (d.getD 0 0)).2 = none →
                ∀ g1 e, unmarshalBinary env g d = some (g1, some e) →
                  e = "LZMA header: uncompressed size out of int64 range")) := by
  have hlen := length_of_success env h0 h1 data hs
  have hx := leValue_four_lt (data.drop 1)
  have hxi : ((leValue 4 (data.drop 1) : Nat) : Int) ≤ 2 ^ 32 - 1 := by
    have : ((leValue 4 (data.drop 1) : Nat) : Int) < 2 ^ 32 := by exact_mod_cast hx
    omega
  have hdc : h1.DictCap = (leValue 4 (data.drop 1) : Int) := by
    rw [unmarshalBinary_len13 env h0 data hlen] at hs
    cases hp : (env.PropertiesForCode (data.getD 0 0)).2 with
    | some err => rw [hp] at hs; simp at hs
    | none =>
      rw [hp] at hs
      simp only at hs
      rcases dictCap_cases env.intBits _ hbits hx with ⟨hk, _⟩ | ⟨hneg, _, _⟩
      · rw [if_neg (by rw [hk]; omega)] at hs
        split at hs
        · simp only [Option.some.injEq, Prod.mk.injEq, and_true] at hs
          rw [← hs]
          exact hk
        · split at hs
          · simp at hs
          · simp only [Option.some.injEq, Prod.mk.injEq, and_true] at hs
            rw [← hs]
            exact hk
      · rw [if_pos hneg] at hs
        simp at hs
  refine ⟨hlen, hdc, by rw [hdc]; exact Int.natCast_nonneg _, by rw [hdc]; exact hxi, ?_⟩
  intro h64 d g
  have hk : toSigned env.intBits (leValue 4 (d.drop 1)) = (leValue 4 (d.drop 1) : Int) :=
    dictCap_kept env.intBits _ (leValue_four_lt (d.drop 1)) (Or.inl h64)
  refine ⟨by rw [hk]; omega, ?_⟩
  intro hdl hp g1 e he
  rw [unmarshal_accepted env g d hdl hp hk] at he
  split at he
  · simp at he
  · split at he
    · simp at he
    · simp only [Option.some.injEq, Prod.mk.injEq] at he
      exact he.2.symm

/-- Witness for C17: the 13 bytes of the sample header with size
0x0102030405060708, on a 64-bit `int`. -/
theorem decoded_dictCap_range_witness :
    unmarshalBinary sampleEnv (sampleHeader 5) [93, 0, 0, 128, 0, 8, 7, 6, 5, 4, 3, 2, 1]
        = some (sampleHeader 0x0102030405060708, none)
      ∧ (sampleHeader 0x0102030405060708).DictCap
          = (leValue 4 (([93, 0, 0, 128, 0, 8, 7, 6, 5, 4, 3, 2, 1] : List Byte).drop 1) : Int)
      ∧ 0 ≤ (sampleHeader 0x0102030405060708).DictCap
      ∧ (sampleHeader 0x0102030405060708).DictCap ≤ 2 ^ 32 - 1 :=
  ⟨by decide,
   (decoded_dictCap_range sampleEnv (sampleHeader 5) (sampleHeader 0x0102030405060708)
      [93, 0, 0, 128, 0, 8, 7, 6, 5, 4, 3, 2, 1] (Or.inr (by decide)) (by decide)).2.1,
   (decoded_dictCap_range sampleEnv (sampleHeader 5) (sampleHeader 0x0102030405060708)
      [93, 0, 0, 128, 0, 8, 7, 6, 5, 4, 3, 2, 1] (Or.inr (by decide)) (by decide)).2.2.1,
   (decoded_dictCap_range sampleEnv (sampleHeader 5) (sampleHeader 0x0102030405060708)
      [93, 0, 0, 128, 0, 8, 7, 6, 5, 4, 3, 2, 1] (Or.inr (by decide)) (by decide)).2.2.2.1⟩

end Lzma

namespace Lzma

theorem putUint32LE_cons (b0 b1 b2 b3 : Byte) (rest : List Byte) (x : Nat) :
    putUint32LE (b0 :: b1 :: b2 :: b3 :: rest) x
      = some (toByte x :: toByte (x >>> 8) :: toByte (x >>> 16) :: toByte (x >>> 24) :: rest) := by
  simp [putUint32LE, assign]

theorem putUint64LE_cons (b0 b1 b2 b3 b4 b5 b6 b7 : Byte) (rest : List Byte) (x : Nat) :
    putUint64LE (b0 :: b1 :: b2 :: b3 :: b4 :: b5 :: b6 :: b7 :: rest) x
      = some (toByte x :: toByte (x >>> 8) :: toByte (x >>> 16) :: toByte (x >>> 24)
          :: toByte (x >>> 32) :: toByte (x >>> 40) :: toByte (x >>> 48) :: toByte (x >>> 56)
          :: rest) := by
  simp [putUint64LE, assign]

/-- The bytes written for the little-endian value of four bytes are those
bytes. -/
theorem toByte_le32 (c0 c1 c2 c3 : Byte) :
    toByte (c0.val + 256 * c1.val + 65536 * c2.val + 16777216 * c3.val) = c0
      ∧ toByte ((c0.val + 256 * c1.val + 65536 * c2.val + 16777216 * c3.val) >>> 8) = c1
      ∧ toByte ((c0.val + 256 * c1.val + 65536 * c2.val + 16777216 * c3.val) >>> 16) = c2
      ∧ toByte ((c0.val + 256 * c1.val + 65536 * c2.val + 16777216 * c3.val) >>> 24) = c3 := by
  have h0 := c0.isLt
  have h1 := c1.isLt
  have h2 := c2.isLt
  have h3 := c3.isLt
  refine ⟨?_, ?_, ?_, ?_⟩ <;>
    (apply Fin.ext; simp only [toByte_val, Nat.shiftRight_eq_div_pow]; omega)

/-- The bytes written for the little-endian value of eight bytes are those
bytes. -/
theorem toByte_le64 (c0 c1 c2 c3 c4 c5 c6 c7 : Byte) (v : Nat)
    (hv : v = c0.val + 2 ^ 8 * c1.val + 2 ^ 16 * c2.val + 2 ^ 24 * c3.val + 2 ^ 32 * c4.val
          + 2 ^ 40 * c5.val + 2 ^ 48 * c6.val + 2 ^ 56 * c7.val) :
    toByte v = c0 ∧ toByte (v >>> 8) = c1 ∧ toByte (v >>> 16) = c2 ∧ toByte (v >>> 24) = c3
      ∧ toByte (v >>> 32) = c4 ∧ toByte (v >>> 40) = c5 ∧ toByte (v >>> 48) = c6
      ∧ toByte (v >>> 56) = c7 := by
  have h0 := c0.isLt
  have h1 := c1.isLt
  have h2 := c2.isLt
  have h3 := c3.isLt
  have h4 := c4.isLt
  have h5 := c5.isLt
  have h6 := c6.isLt
  have h7 := c7.isLt
  norm_num at hv
  refine ⟨?_, ?_, ?_, ?_, ?_, ?_, ?_, ?_⟩ <;>
    (apply Fin.ext; simp only [toByte_val, Nat.shiftRight_eq_div_pow]; omega)

/-- C18: the little-endian helpers are mutually inverse.  For a uint64 `x` and
a slice `b` of length at least 8, `putUint64LE(b, x)` leaves a slice on which
`uint64LE` returns `x`, whose byte 0 is the least significant byte of `x` and
whose bytes from index 8 on are those of `b`; for every 8 bytes `c`, writing
`uint64LE(c)` with `putUint64LE` gives the bytes `c` again; and the same holds
for `putUint32LE` and `uint32LE` with width 4. -/
theorem littleEndian_inverse :
    (∀ (b : List Byte) (x : Nat), 8 ≤ b.length → x < 2 ^ 64 →
        ∃ b2, putUint64LE b x = some b2 ∧ uint64LE b2 = some x ∧ b2.drop 8 = b.drop 8
          ∧ b2.length = b.length ∧ b2[0]? = some (toByte x))
      ∧ (∀ (b c : List Byte), 8 ≤ b.length → c.length = 8 →
          ∃ v, uint64LE c = some v ∧ v = leValue 8 c ∧ putUint64LE c v = some c
            ∧ putUint64LE b v = some (c ++ b.drop 8))
      ∧ (∀ (b : List Byte) (x : Nat), 4 ≤ b.length → x < 2 ^ 32 →
          ∃ b2, putUint32LE b x = some b2 ∧ uint32LE b2 = some x ∧ b2.drop 4 = b.drop 4
            ∧ b2.length = b.length ∧ b2[0]? = some (toByte x))
      ∧ (∀ (b c : List Byte), 4 ≤ b.length → c.length = 4 →
          ∃ v, uint32LE c = some v ∧ v = leValue 4 c ∧ putUint32LE c v = some c
            ∧ putUint32LE b v = some (c ++ b.drop 4)) := by
  refine ⟨?_, ?_, ?_, ?_⟩
  · intro b x hb hx
    obtain ⟨b0, b1, b2, b3, b4, b5, b6, b7, rest, rfl⟩ := exists_eight b hb
    refine ⟨_, putUint64LE_cons _ _ _ _ _ _ _ _ _ _, ?_, rfl, rfl, rfl⟩
    rw [uint64LE_cons]
    simp only [toByte_val, Nat.shiftRight_eq_div_pow, Option.some.injEq]
    exact le64_digits x hx
  · intro b c hb hc
    obtain ⟨b0, b1, b2, b3, b4, b5, b6, b7, rest, rfl⟩ := exists_eight b hb
    obtain ⟨c0, c1, c2, c3, c4, c5, c6, c7, crest, rfl⟩ := exists_eight c (by omega)
    have hnil : crest = [] := by
      simp only [List.length_cons] at hc
      exact List.length_eq_zero.mp (by omega)
    subst hnil
    obtain ⟨e0, e1, e2, e3, e4, e5, e6, e7⟩ := toByte_le64 c0 c1 c2 c3 c4 c5 c6 c7 _ rfl
    refine ⟨_, uint64LE_cons _ _ _ _ _ _ _ _ _, (leValue_eight _ _ _ _ _ _ _ _ _).symm, ?_, ?_⟩
    · rw [putUint64LE_cons, e0, e1, e2, e3, e4, e5, e6, e7]
    · rw [putUint64LE_cons, e0, e1, e2, e3, e4, e5, e6, e7]
      rfl
  · intro b x hb hx
    obtain ⟨b0, b1, b2, b3, rest, rfl⟩ := exists_four b hb
    refine ⟨_, putUint32LE_cons _ _ _ _ _ _, ?_, rfl, rfl, rfl⟩
    rw [uint32LE_cons]
    simp only [toByte_val, Nat.shiftRight_eq_div_pow, Option.some.injEq]
    exact le32_digits x hx
  · intro b c hb hc
    obtain ⟨b0, b1, b2, b3, rest, rfl⟩ := exists_four b hb
    obtain ⟨c0, c1, c2, c3, crest, rfl⟩ := exists_four c (by omega)
    have hnil : crest = [] := by
      simp only [List.length_cons] at hc
      exact List.length_eq_zero.mp (by omega)
    subst hnil
    obtain ⟨e0, e1, e2, e3⟩ := toByte_le32 c0 c1 c2 c3
    refine ⟨_, uint32LE_cons _ _ _ _ _, (leValue_four _ _ _ _ _).symm, ?_, ?_⟩
    · rw [putUint32LE_cons, e0, e1, e2, e3]
    · rw [putUint32LE_cons, e0, e1, e2, e3]
      rfl

/-- Witness for C18: the value 0x0102030405060708 written over ten bytes, and
0x5D000080 written over five. -/
theorem littleEndian_inverse_witness :
    (∃ b2, putUint64LE [9, 9, 9, 9, 9, 9, 9, 9, 7, 7] 0x0102030405060708 = some b2
        ∧ uint64LE b2 = some 0x0102030405060708
        ∧ b2.drop 8 = ([9, 9, 9, 9, 9, 9, 9, 9, 7, 7] : List Byte).drop 8
        ∧ b2.length = ([9, 9, 9, 9, 9, 9, 9, 9, 7, 7] : List Byte).length
        ∧ b2[0]? = some (toByte 0x0102030405060708))
      ∧ (∃ b2, putUint32LE [9, 9, 9, 9, 7] 0x5D000080 = some b2
        ∧ uint32LE b2 = some 0x5D000080
        ∧ b2.drop 4 = ([9, 9, 9, 9, 7] : List Byte).drop 4
        ∧ b2.length = ([9, 9, 9, 9, 7] : List Byte).length
        ∧ b2[0]? = some (toByte 0x5D000080)) :=
  ⟨littleEndian_inverse.1 [9, 9, 9, 9, 9, 9, 9, 9, 7, 7] 0x0102030405060708
      (by decide) (by decide),
   littleEndian_inverse.2.2.1 [9, 9, 9, 9, 7] 0x5D000080 (by decide) (by decide)⟩

end Lzma
